import Mathlib

/-!
Verification of the "Wall of Shame" pipeline (scraper / toxicity scorer /
judge pipeline / export step) against its specification.

Conventions of the embedding:
* Classifier scores are modelled as rationals (`ℚ`): the toxicity classifier
  is an external black box producing real scores in `[0,1]`; the Python code
  manipulates them as floats, which we idealise as exact arithmetic.
* External I/O (the classifier, the GitHub API, the review bot) is modelled
  by oracle functions passed as explicit parameters.
* Python code that can raise an uncaught exception is modelled by an
  `Option` result, `none` standing for the raised exception.
-/

set_option maxHeartbeats 1000000

/-! ## Toxicity scorer (`toxicity.py`, `precompute.py`) -/

/-- The six toxicity axes, in the fixed iteration order used by the code
(`axes = [...]` in `find_worst_commit`, `keys = [...]` in `analyze_toxicity`). -/
def AXES : List String :=
  ["toxicity", "severe_toxicity", "obscene", "threat", "insult", "identity_attack"]

/-- Oracle for `model.predict`: given a batch of texts it either returns, for
each axis name, the list of per-text scores, or fails (`none` = the model
raised, caught by the surrounding `try`/`except`). -/
abbrev Predict := List String → Option (String → List ℚ)

/-- Result dict of `toxicity.analyze_toxicity`: the six averaged axis scores. -/
structure ToxScores where
  toxicity : ℚ
  severe_toxicity : ℚ
  obscene : ℚ
  threat : ℚ
  insult : ℚ
  identity_attack : ℚ
deriving Repr, DecidableEq

/-- The all-zero score dict returned on empty input or model failure. -/
def zeroScores : ToxScores := ⟨0, 0, 0, 0, 0, 0⟩

/-- Arithmetic mean of a list of rationals (`results[key].mean()`,
`sum(...) / len(...)`); `0` on the empty list. -/
def qmean (l : List ℚ) : ℚ := l.sum / l.length

namespace Toxicity

/-- `toxicity.analyze_toxicity`: average of the per-text scores on each of the
six axes; all zeros on empty input or if the model raises. -/
def analyze_toxicity (predict : Predict) (texts : List String) : ToxScores :=
  if texts.isEmpty then zeroScores
  else
    match predict texts with
    | none => zeroScores
    | some results =>
      { toxicity := qmean (results "toxicity")
        severe_toxicity := qmean (results "severe_toxicity")
        obscene := qmean (results "obscene")
        threat := qmean (results "threat")
        insult := qmean (results "insult")
        identity_attack := qmean (results "identity_attack") }

end Toxicity

/-- Return value of `find_worst_commit`. -/
structure WorstCommit where
  message : String
  toxicity_axis : String
  toxicity_score : ℚ
  all_scores : List (String × ℚ)
deriving Repr, DecidableEq

/-- The `(idx, axis)` pairs in the order scanned by `find_worst_commit`'s
nested loops: outer loop over text indices, inner loop over `AXES`. -/
def toxPairs (n : Nat) : List (Nat × String) :=
  (List.range n).flatMap fun i => AXES.map fun a => (i, a)

/-- One step of the worst-commit accumulator: replace the current best only on
a strictly greater score (`if score > worst_score`). -/
def bestStep (f : α → ℚ) (acc : Option α × ℚ) (p : α) : Option α × ℚ :=
  if f p > acc.2 then (some p, f p) else acc

/-- The scanning loop of `find_worst_commit` over the `(idx, axis)` pairs,
reading `results[axis][idx]`; `none` models an uncaught `IndexError`
(caught by the surrounding `try`/`except` in the source). -/
def scanPairs (results : String → List ℚ) :
    List (Nat × String) → (Option (Nat × String) × ℚ) →
    Option (Option (Nat × String) × ℚ)
  | [], acc => some acc
  | p :: rest, acc =>
    match (results p.2).get? p.1 with
    | none => none
    | some score =>
      scanPairs results rest (if score > acc.2 then (some p, score) else acc)

namespace Toxicity

/-- `toxicity.find_worst_commit`: scan every `(text, axis)` pair keeping the
strictly-highest score (initial threshold `0.0`); `None` on empty input,
model failure, or when no score exceeds `0.0`. -/
def find_worst_commit (predict : Predict) (texts : List String) :
    Option WorstCommit :=
  if texts.isEmpty then none
  else
    match predict texts with
    | none => none
    | some results =>
      match scanPairs results (toxPairs texts.length) (none, 0) with
      | none => none
      | some (none, _) => none
      | some (some (wi, wa), wscore) =>
        match texts.get? wi,
              AXES.mapM (fun a => ((results a).get? wi).map fun q => (a, q)) with
        | some wmsg, some allS => some ⟨wmsg, wa, wscore, allS⟩
        | _, _ => none

end Toxicity

namespace Precompute

/-- `precompute.find_worst_commit` — precompute.py duplicates
`toxicity.find_worst_commit` verbatim. -/
def find_worst_commit (predict : Predict) (texts : List String) :
    Option WorstCommit :=
  Toxicity.find_worst_commit predict texts

/-- Result dict of `precompute.analyze_toxicity`: six axis averages plus the
worst single commit (by the `toxicity` axis). -/
structure PreToxResult where
  toxicity : ℚ
  severe_toxicity : ℚ
  obscene : ℚ
  threat : ℚ
  insult : ℚ
  identity_attack : ℚ
  worst_commit_toxicity : ℚ
  worst_commit_msg : String
deriving Repr, DecidableEq

/-- The zero dict (`zero` in the source). -/
def zeroPre : PreToxResult := ⟨0, 0, 0, 0, 0, 0, 0, ""⟩

/-- Fuel-indexed batching loop (each step drops at least one element, so
`l.length` fuel always suffices). -/
def pyChunksF : Nat → List String → List (List String)
  | 0, _ => []
  | _, [] => []
  | f + 1, h :: t => (h :: t).take 32 :: pyChunksF f ((h :: t).drop 32)

/-- The batches `texts[i:i+32]` for `i in range(0, len(texts), 32)`. -/
def pyChunks (l : List String) : List (List String) := pyChunksF l.length l

/-- The batched prediction loop: `all_scores[k].extend(results[k])` over the
32-element batches; `none` if the model raises on any batch. -/
def gatherScores (predict : Predict) (texts : List String) :
    Option (String → List ℚ) :=
  ((pyChunks texts).mapM predict).map fun rs => fun k => (rs.map fun r => r k).flatten

/-- One step of Python's `max(..., key=...)`: keep the current maximum,
replacing it only on a strictly greater key (so the first of equals wins). -/
def argmaxStep (acc : Option (Nat × ℚ)) (p : Nat × ℚ) : Option (Nat × ℚ) :=
  match acc with
  | none => some p
  | some q => if p.2 > q.2 then some p else acc

/-- `max(range(len(tox)), key=lambda i: tox[i])`: the first index attaining
the maximum (Python's `max` keeps the earlier element on ties); `none` on the
empty list (where `max` raises `ValueError`). -/
def argmaxFirst (l : List ℚ) : Option Nat :=
  (l.enum.foldl argmaxStep none).map (·.1)

/-- `precompute.analyze_toxicity`: batched scoring, six axis means, plus the
single most toxic commit on the `toxicity` axis; the zero dict on empty input
or when the `try` block raises. -/
def analyze_toxicity (predict : Predict) (texts : List String) : PreToxResult :=
  if texts.isEmpty then zeroPre
  else
    match gatherScores predict texts with
    | none => zeroPre
    | some all =>
      let tox := all "toxicity"
      match argmaxFirst tox with
      | none => zeroPre
      | some wi =>
        match tox.get? wi, texts.get? wi with
        | some wscore, some wmsg =>
          { toxicity := qmean (all "toxicity")
            severe_toxicity := qmean (all "severe_toxicity")
            obscene := qmean (all "obscene")
            threat := qmean (all "threat")
            insult := qmean (all "insult")
            identity_attack := qmean (all "identity_attack")
            worst_commit_toxicity := wscore
            worst_commit_msg := wmsg }
        | _, _ => zeroPre

end Precompute

/-! ## Grade curving (`export.py`) -/

namespace Export

/-- A judge-result dict entry.  `curve_grades` only reads and writes the
`quality_grade` key (`Option` models a possibly missing key, read through
`result.get("quality_grade", "Pending")`); the remaining keys are carried
untouched in `rest`. -/
structure JResult where
  quality_grade : Option String
  rest : List (String × String)
deriving Repr, DecidableEq

/-- `GRADE_ORDER`: numeric value of each letter grade; `none` for strings not
in the table (`"Pending"`, `"Error"`, …). -/
def GRADE_ORDER (g : String) : Option Int :=
  if g = "A+" then some 13 else if g = "A" then some 12 else if g = "A-" then some 11
  else if g = "B+" then some 10 else if g = "B" then some 9 else if g = "B-" then some 8
  else if g = "C+" then some 7 else if g = "C" then some 6 else if g = "C-" then some 5
  else if g = "D+" then some 4 else if g = "D" then some 3 else if g = "D-" then some 2
  else if g = "F+" then some 1 else if g = "F" then some 0 else if g = "F-" then some (-1)
  else none

/-- `CURVE_THRESHOLDS`: cumulative percentile cutoffs, best-to-worst grades. -/
def CURVE_THRESHOLDS : List (Nat × String) :=
  [(3, "F"), (8, "D-"), (15, "D"), (23, "D+"), (35, "C-"), (50, "C"),
   (65, "C+"), (77, "B-"), (88, "B"), (95, "B+"), (99, "A-"), (100, "A")]

/-- The per-user percentile `(rank / max(n - 1, 1)) * 100` (0 = worst).
The source computes this in float arithmetic; we use exact rationals. -/
def pct (rank n : Nat) : ℚ := ((rank : ℚ) / (max (n - 1) 1 : Nat)) * 100

/-- The threshold scan: `new_grade = "A+"`, then the first threshold with
`percentile <= cutoff` wins. -/
def gradeFor (p : ℚ) : String :=
  ((CURVE_THRESHOLDS.find? fun cg => p ≤ (cg.1 : ℚ)).map (·.2)).getD "A+"

/-- The graded users, in dict order, paired with their numeric grade
(users whose grade is missing from `GRADE_ORDER` are skipped). -/
def gradedOf (jr : List (String × JResult)) : List (String × Int) :=
  jr.filterMap fun p => (GRADE_ORDER (p.2.quality_grade.getD "Pending")).map fun n => (p.1, n)

/-- `curved[username]["quality_grade"] = new_grade`: overwrite the grade of
the entry (entries) keyed by `u`. -/
def setGrade (l : List (String × JResult)) (u : String) (g : String) :
    List (String × JResult) :=
  l.map fun p => if p.1 = u then (p.1, { p.2 with quality_grade := some g }) else p

/-- The assignment loop of `curve_grades` over the rank-enumerated sorted
graded list. -/
def assignGrades (ranked : List (Nat × String × Int)) (n : Nat)
    (acc : List (String × JResult)) : List (String × JResult) :=
  ranked.foldl (fun acc p => setGrade acc p.2.1 (gradeFor (pct p.1 n))) acc

/-- Stable insertion of an element into a list sorted ascending by the
numeric grade: the element goes before every later element with an equal
key. -/
def insSorted (x : String × Int) : List (String × Int) → List (String × Int)
  | [] => [x]
  | y :: ys => if y.2 < x.2 then y :: insSorted x ys else x :: y :: ys

/-- Stable ascending sort by numeric grade (`graded.sort(key=lambda x: x[1])`:
Python's `list.sort` is stable and ascending; any stable sort is a faithful
model). -/
def stableSortAsc : List (String × Int) → List (String × Int)
  | [] => []
  | x :: xs => insSorted x (stableSortAsc xs)

/-- `export.curve_grades`: collect graded users, stable-sort ascending by
numeric grade, and reassign each a curved grade from its percentile rank.
The judge-results dict is modelled as an association list in dict order. -/
def curve_grades (jr : List (String × JResult)) : List (String × JResult) :=
  let graded := gradedOf jr
  if graded.isEmpty then jr
  else
    let sorted := stableSortAsc graded
    let n := sorted.length
    assignGrades sorted.enum n jr

end Export

/-! ## A small regex engine

`judge.py` extracts fields with `re.search`.  We embed exactly the patterns it
uses.  Every quantifier in those patterns ranges over a single character
class, so the engine supports literals, alternation, sequencing, capture
groups, and greedy/lazy counted repetition of a character class, with
Python's leftmost-match and backtracking priority semantics. -/

/-- Regular expressions: literal string, single-character class, alternation
(left-priority), sequencing, counted repetition `p{lo,hi}` of a class
(greedy when `lz = false`, lazy when `lz = true`, `hi = none` meaning `∞`),
and a capture group. -/
inductive RE where
  | lit (cs : List Char)
  | cls (p : Char → Bool)
  | alt (a b : RE)
  | seq (a b : RE)
  | rep (p : Char → Bool) (lo : Nat) (hi : Option Nat) (lz : Bool)
  | grp (a : RE)

/-- Length of the maximal run of characters satisfying `p`. -/
def runLen (p : Char → Bool) : List Char → Nat
  | [] => 0
  | c :: cs => if p c then runLen p cs + 1 else 0

/-- Matcher continuations: remaining input and current capture. -/
abbrev MK := List Char → Option (List Char) → Option (Option (List Char))

/-- Greedy repetition: try `j = hi, hi-1, …, lo` repetitions in that order. -/
def tryDesc (s : List Char) (cap : Option (List Char)) (k : MK) (lo : Nat) :
    Nat → Option (Option (List Char))
  | 0 => if 0 < lo then none else k s cap
  | j + 1 =>
    if j + 1 < lo then none
    else (k (s.drop (j + 1)) cap) <|> tryDesc s cap k lo j

/-- Lazy repetition: try `j, j+1, …` repetitions in that order, `count` many
candidates in total (called with `count = hi + 1 - lo`, `j = lo`). -/
def tryAsc (s : List Char) (cap : Option (List Char)) (k : MK) :
    Nat → Nat → Option (Option (List Char))
  | 0, _ => none
  | count + 1, j => (k (s.drop j) cap) <|> tryAsc s cap k count (j + 1)

/-- Backtracking matcher in continuation-passing style.  Branches are tried
in Python's priority order; a group records the characters it consumed. -/
def mrun : RE → List Char → Option (List Char) → MK → Option (Option (List Char))
  | .lit cs, s, cap, k => if cs.isPrefixOf s then k (s.drop cs.length) cap else none
  | .cls p, s, cap, k =>
    match s with
    | [] => none
    | c :: rest => if p c then k rest cap else none
  | .alt a b, s, cap, k => mrun a s cap k <|> mrun b s cap k
  | .seq a b, s, cap, k => mrun a s cap fun s2 c2 => mrun b s2 c2 k
  | .grp a, s, cap, k => mrun a s cap fun s2 _ => k s2 (some (s.take (s.length - s2.length)))
  | .rep p lo hi lz, s, cap, k =>
    let m := runLen p s
    let hi' := min m (hi.getD m)
    if lz then tryAsc s cap k (hi' + 1 - lo) lo else tryDesc s cap k lo hi'

/-- Accepting continuation: succeed, returning the capture. -/
def mkDone : MK := fun _ cap => some cap

/-- Try to match at each start position, leftmost first (`re.search`). -/
def searchList (re : RE) : List Char → Option (Option (List Char))
  | [] => mrun re [] none mkDone
  | c :: rest => mrun re (c :: rest) none mkDone <|> searchList re rest

/-- `re.search(pattern, s)` followed by `.group(1)` (all embedded patterns
have exactly one group, which is always consumed on a successful match). -/
def reSearch (re : RE) (s : String) : Option String :=
  (searchList re s.toList).map fun c => String.mk (c.getD [])

/-- Python's `\s` class (ASCII range). -/
def pyWs (c : Char) : Bool :=
  c = ' ' ∨ c = '\t' ∨ c = '\n' ∨ c = '\r' ∨ c = '\x0b' ∨ c = '\x0c'

/-- The class `[:\s]`. -/
def colonWs (c : Char) : Bool := c = ':' ∨ pyWs c

/-- The class `[A-F]`. -/
def isAF (c : Char) : Bool := 'A' ≤ c ∧ c ≤ 'F'

/-- The class `[+-]`. -/
def isPM (c : Char) : Bool := c = '+' ∨ c = '-'

/-- The class `[^\"\\n]` from the raw-string patterns: as written it excludes
the double quote, the backslash, and the letter `n`. -/
def notQBSn (c : Char) : Bool := ¬(c = '"' ∨ c = '\\' ∨ c = 'n')

/-- The class `[^\"]`. -/
def notQ (c : Char) : Bool := c ≠ '"'

/-- The class `[A-Za-z]`. -/
def isAsciiLetter (c : Char) : Bool := ('A' ≤ c ∧ c ≤ 'Z') ∨ ('a' ≤ c ∧ c ≤ 'z')

/-- The class `\"`. -/
def isQuote (c : Char) : Bool := c = '"'

/-- The class `[^>]`. -/
def notGt (c : Char) : Bool := c ≠ '>'

/-- DOTALL `.`: any character. -/
def anyCh (_ : Char) : Bool := true

/-- Sequence a list of regexes. -/
def reCat (l : List RE) : RE := l.foldr RE.seq (RE.lit [])

/-- Three-way literal alternation `(?:A|B|C)`. -/
def alt3 (a b c : String) : RE :=
  RE.alt (.lit a.toList) (.alt (.lit b.toList) (.lit c.toList))

/-- Pattern 1 of the parser: ```` ```json\s*\n(.*?)\n\s*``` ```` (DOTALL). -/
def jsonBlockRe : RE :=
  reCat [.lit "```json".toList, .rep pyWs 0 none false, .lit ['\n'],
         .grp (.rep anyCh 0 none true), .lit ['\n'], .rep pyWs 0 none false,
         .lit "```".toList]

/-- Pattern `\*\*(?:GRADE|Grade|grade)\*\*[:\s]*([A-F][+-]?)`. -/
def boldGradeRe : RE :=
  reCat [.lit "**".toList, alt3 "GRADE" "Grade" "grade", .lit "**".toList,
         .rep colonWs 0 none false,
         .grp (.seq (.cls isAF) (.rep isPM 0 (some 1) false))]

/-- Pattern `\*\*(?:VERDICT|Verdict|verdict)\*\*[:\s]*\"?([^\"\\n]+)\"?`. -/
def boldVerdictRe : RE :=
  reCat [.lit "**".toList, alt3 "VERDICT" "Verdict" "verdict", .lit "**".toList,
         .rep colonWs 0 none false, .rep isQuote 0 (some 1) false,
         .grp (.rep notQBSn 1 none false), .rep isQuote 0 (some 1) false]

/-- Pattern `\*\*(?:BADGE|Badge|badge)\*\*[:\s]*\"?([^\"\\n]+)\"?`. -/
def boldBadgeRe : RE :=
  reCat [.lit "**".toList, alt3 "BADGE" "Badge" "badge", .lit "**".toList,
         .rep colonWs 0 none false, .rep isQuote 0 (some 1) false,
         .grp (.rep notQBSn 1 none false), .rep isQuote 0 (some 1) false]

/-- Pattern `(?:grade|Grade)[:\s]+([A-F][+-]?)`. -/
def looseGradeRe : RE :=
  reCat [.alt (.lit "grade".toList) (.lit "Grade".toList),
         .rep colonWs 1 none false,
         .grp (.seq (.cls isAF) (.rep isPM 0 (some 1) false))]

/-- Pattern `(?:verdict|Verdict)[:\s]+\"([^\"]+)\"`. -/
def looseVerdictRe : RE :=
  reCat [.alt (.lit "verdict".toList) (.lit "Verdict".toList),
         .rep colonWs 1 none false, .lit ['"'],
         .grp (.rep notQ 1 none false), .lit ['"']]

/-- Pattern `(?:badge|Badge)[:\s]+\"?([A-Za-z][^\"\\n]{2,40})\"?`. -/
def looseBadgeRe : RE :=
  reCat [.alt (.lit "badge".toList) (.lit "Badge".toList),
         .rep colonWs 1 none false, .rep isQuote 0 (some 1) false,
         .grp (.seq (.cls isAsciiLetter) (.rep notQBSn 2 (some 40) false)),
         .rep isQuote 0 (some 1) false]

/-- Pattern `<([^>]+)>;\s*rel="last"` used on the `Link` header. -/
def linkLastRe : RE :=
  reCat [.lit ['<'], .grp (.rep notGt 1 none false), .lit ">;".toList,
         .rep pyWs 0 none false, .lit "rel=\"last\"".toList]

/-- Does `n` occur as a prefix at some position of `h`? -/
def hasInfix (n : List Char) : List Char → Bool
  | [] => n.isEmpty
  | c :: t => n.isPrefixOf (c :: t) || hasInfix n t

/-- Python's substring test `needle in hay`. -/
def substrIn (needle hay : String) : Bool := hasInfix needle.toList hay.toList

/-- Python `str.strip()` (ASCII whitespace). -/
def pyStrip (s : String) : String :=
  String.mk (((s.toList.dropWhile pyWs).reverse.dropWhile pyWs).reverse)

/-- Python `str.startswith(pre)`. -/
def pyStarts (s pre : String) : Bool := pre.toList.isPrefixOf s.toList

/-! ## JSON values and `json.loads` -/

/-- Values produced by `json.loads`.  Integer-syntax numbers are kept as
integers (Python produces an `int`); numbers with a fraction or exponent, and
the constants `NaN`/`Infinity`/`-Infinity`, are floats, kept as their source
literal. -/
inductive Json where
  | null
  | bool (b : Bool)
  | num (n : Int)
  | numF (lit : String)
  | str (s : String)
  | arr (l : List Json)
  | obj (l : List (String × Json))

/-- Python-dict insertion: an existing key keeps its position and gets the new
value; a new key is appended. -/
def objInsert (l : List (String × Json)) (k : String) (v : Json) :
    List (String × Json) :=
  if l.any (·.1 = k) then l.map (fun p => if p.1 = k then (k, v) else p)
  else l ++ [(k, v)]

/-- Dict key lookup (`data.get(k)`). -/
def jGet (l : List (String × Json)) (k : String) : Option Json :=
  (l.find? (·.1 = k)).map (·.2)

/-- JSON whitespace skipped by the decoder. -/
def jWs (c : Char) : Bool := c = ' ' ∨ c = '\t' ∨ c = '\n' ∨ c = '\r'

/-- Drop leading JSON whitespace. -/
def skipWs : List Char → List Char
  | [] => []
  | c :: cs => if jWs c then skipWs cs else c :: cs

/-- Hex digit value. -/
def hexVal (c : Char) : Option Nat :=
  if '0' ≤ c ∧ c ≤ '9' then some (c.toNat - '0'.toNat)
  else if 'a' ≤ c ∧ c ≤ 'f' then some (c.toNat - 'a'.toNat + 10)
  else if 'A' ≤ c ∧ c ≤ 'F' then some (c.toNat - 'A'.toNat + 10)
  else none

/-- JSON string body parser (after the opening quote): handles the standard
escapes and `\uXXXX`, and rejects raw control characters (strict mode).
Astral/surrogate `\u` sequences are approximated by `Char.ofNat`.
Fuel-indexed (each step consumes at least one character, so `s.length + 1`
fuel always suffices). -/
def jstrF : Nat → List Char → List Char → Option (String × List Char)
  | 0, _, _ => none
  | f + 1, acc, s =>
    match s with
    | [] => none
    | c :: cs =>
      if c = '"' then some (String.mk acc.reverse, cs)
      else if c = '\\' then
        match cs with
        | [] => none
        | e :: cs2 =>
          if e = '"' then jstrF f ('"' :: acc) cs2
          else if e = '\\' then jstrF f ('\\' :: acc) cs2
          else if e = '/' then jstrF f ('/' :: acc) cs2
          else if e = 'b' then jstrF f ('\x08' :: acc) cs2
          else if e = 'f' then jstrF f ('\x0c' :: acc) cs2
          else if e = 'n' then jstrF f ('\n' :: acc) cs2
          else if e = 'r' then jstrF f ('\r' :: acc) cs2
          else if e = 't' then jstrF f ('\t' :: acc) cs2
          else if e = 'u' then
            match cs2 with
            | h1 :: h2 :: h3 :: h4 :: cs3 =>
              match hexVal h1, hexVal h2, hexVal h3, hexVal h4 with
              | some a, some b, some c3, some d =>
                jstrF f (Char.ofNat (((a * 16 + b) * 16 + c3) * 16 + d) :: acc) cs3
              | _, _, _, _ => none
            | _ => none
          else none
      else if c.toNat < 0x20 then none
      else jstrF f (c :: acc) cs

/-- JSON string body parser with sufficient fuel. -/
def jstr (acc : List Char) (s : List Char) : Option (String × List Char) :=
  jstrF (s.length + 1) acc s

/-- Digit run to a natural number. -/
def digitsToNat (l : List Char) : Nat :=
  l.foldl (fun n c => n * 10 + (c.toNat - '0'.toNat)) 0

/-- JSON number parser: the longest prefix matching
`-?(0|[1-9]\d*)(\.\d+)?([eE][+-]?\d+)?`; integer syntax yields `num`,
fraction/exponent syntax yields `numF` with the matched literal. -/
def parseNum (s : List Char) : Option (Json × List Char) :=
  let (neg, s1) := match s with
    | '-' :: r => (true, r)
    | _ => (false, s)
  match s1 with
  | [] => none
  | c :: _ =>
    if ¬ c.isDigit then none
    else
      let (ip, r1) :=
        if c = '0' then (['0'], s1.drop 1)
        else (s1.takeWhile Char.isDigit, s1.dropWhile Char.isDigit)
      let (fp, r2) :=
        match r1 with
        | '.' :: rf =>
          let fd := rf.takeWhile Char.isDigit
          if fd.isEmpty then (([] : List Char), r1)
          else ('.' :: fd, rf.dropWhile Char.isDigit)
        | _ => ([], r1)
      let (ep, r3) :=
        match r2 with
        | e :: rest =>
          if e = 'e' ∨ e = 'E' then
            let (sgn, rd) :=
              match rest with
              | '+' :: rr => (['+'], rr)
              | '-' :: rr => (['-'], rr)
              | _ => (([] : List Char), rest)
            let ed := rd.takeWhile Char.isDigit
            if ed.isEmpty then (([] : List Char), r2)
            else (e :: (sgn ++ ed), rd.dropWhile Char.isDigit)
          else ([], r2)
        | _ => ([], r2)
      if fp.isEmpty ∧ ep.isEmpty then
        let v : Int := digitsToNat ip
        some (.num (if neg then -v else v), r1)
      else
        let lit := (if neg then ['-'] else []) ++ ip ++ fp ++ ep
        some (.numF (String.mk lit), r3)

mutual

/-- `json.loads` value scanner (fuel-based; fuel is decremented only after
consuming at least one character, so `length + 1` fuel always suffices). -/
def parseVal : Nat → List Char → Option (Json × List Char)
  | 0, _ => none
  | f + 1, s =>
    let s := skipWs s
    if "null".toList.isPrefixOf s then some (.null, s.drop 4)
    else if "true".toList.isPrefixOf s then some (.bool true, s.drop 4)
    else if "false".toList.isPrefixOf s then some (.bool false, s.drop 5)
    else if "NaN".toList.isPrefixOf s then some (.numF "NaN", s.drop 3)
    else if "Infinity".toList.isPrefixOf s then some (.numF "Infinity", s.drop 8)
    else if "-Infinity".toList.isPrefixOf s then some (.numF "-Infinity", s.drop 9)
    else
      match s with
      | '"' :: r => (jstr [] r).map fun p => (.str p.1, p.2)
      | '{' :: r =>
        match skipWs r with
        | '}' :: r2 => some (.obj [], r2)
        | r2 => parseMembers f r2 []
      | '[' :: r =>
        match skipWs r with
        | ']' :: r2 => some (.arr [], r2)
        | r2 => parseItems f r2 []
      | _ => parseNum s

/-- Object members: `"key" : value` separated by commas, ending at `}`. -/
def parseMembers : Nat → List Char → List (String × Json) →
    Option (Json × List Char)
  | 0, _, _ => none
  | f + 1, s, acc =>
    match s with
    | '"' :: r =>
      match jstr [] r with
      | none => none
      | some (k, r2) =>
        match skipWs r2 with
        | ':' :: r3 =>
          match parseVal f r3 with
          | none => none
          | some (v, r4) =>
            let acc := objInsert acc k v
            match skipWs r4 with
            | ',' :: r5 => parseMembers f (skipWs r5) acc
            | '}' :: r5 => some (.obj acc, r5)
            | _ => none
        | _ => none
    | _ => none

/-- Array items: values separated by commas, ending at `]`. -/
def parseItems : Nat → List Char → List Json → Option (Json × List Char)
  | 0, _, _ => none
  | f + 1, s, acc =>
    match parseVal f s with
    | none => none
    | some (v, r) =>
      match skipWs r with
      | ',' :: r2 => parseItems f (skipWs r2) (acc ++ [v])
      | ']' :: r2 => some (.arr (acc ++ [v]), r2)
      | _ => none

end

/-- `json.loads`: parse a complete value; trailing non-whitespace is an
"Extra data" error. -/
def jsonLoads (s : String) : Option Json :=
  match parseVal (s.length + 1) s.toList with
  | some (v, rest) => if (skipWs rest).isEmpty then some v else none
  | none => none

mutual

/-- Python `str()` of a decoded JSON value (`repr` is approximated for
containers and non-integer numbers; no theorem exercises those cases). -/
def pyStr : Json → String
  | .null => "None"
  | .bool true => "True"
  | .bool false => "False"
  | .num n => toString n
  | .numF lit => lit
  | .str s => s
  | .arr l => "[" ++ ", ".intercalate (pyReprList l) ++ "]"
  | .obj l => "\x7b" ++ ", ".intercalate (pyReprPairs l) ++ "\x7d"

/-- `repr` of a list of values (approximation, see `pyStr`). -/
def pyReprList : List Json → List String
  | [] => []
  | j :: js => pyReprOne j :: pyReprList js

/-- `repr` of dict pairs (approximation, see `pyStr`). -/
def pyReprPairs : List (String × Json) → List String
  | [] => []
  | p :: ps => ("'" ++ p.1 ++ "': " ++ pyReprOne p.2) :: pyReprPairs ps

/-- `repr` of one value (approximation, see `pyStr`). -/
def pyReprOne : Json → String
  | .str s => "'" ++ s ++ "'"
  | .null => "None"
  | .bool true => "True"
  | .bool false => "False"
  | .num n => toString n
  | .numF lit => lit
  | .arr l => "[" ++ ", ".intercalate (pyReprList l) ++ "]"
  | .obj l => "\x7b" ++ ", ".intercalate (pyReprPairs l) ++ "\x7d"

end

/-! ## Response parser (`judge.py`) -/

/-- The `(grade, verdict, badge)` triple extracted from a review comment. -/
structure CRResult where
  quality_grade : String
  verdict : String
  coderabbit_badge : String
deriving Repr, DecidableEq

/-- `re.split(r"[.!]\s", body)`: split on a `.`/`!` immediately followed by a
whitespace character (both characters removed, non-overlapping, leftmost). -/
def splitSent (acc : List Char) : List Char → List String
  | c1 :: c2 :: rest =>
    if (c1 = '.' ∨ c1 = '!') ∧ pyWs c2 then
      String.mk acc.reverse :: splitSent [] rest
    else splitSent (c1 :: acc) (c2 :: rest)
  | [c] => [String.mk (c :: acc).reverse]
  | [] => [String.mk acc.reverse]

/-- The first stripped sentence longer than 30 characters that does not
start with a filler opener, if any. -/
def roastCandidate (body : String) : Option String :=
  ((splitSent [] body.toList).map pyStrip).find? fun s =>
    s.length > 30 ∧
      ¬(pyStarts s "I" ∨ pyStarts s "The PR" ∨ pyStarts s "This pull" ∨
        pyStarts s "Here")

/-- `judge.extract_first_roast`: first stripped sentence longer than 30
characters not starting with a filler opener, truncated to 200 characters;
`"Pending review…"` if none qualifies. -/
def extract_first_roast (body : String) : String :=
  match roastCandidate body with
  | some s => String.mk (s.toList.take 200)
  | none => "Pending review…"

/-- The triple built from a fenced JSON object
(`str(data.get("grade", "Pending"))` etc.). -/
def jsonTriple (kvs : List (String × Json)) : CRResult :=
  { quality_grade :=
      match jGet kvs "grade" with | some v => pyStr v | none => "Pending"
    verdict :=
      match jGet kvs "verdict" with | some v => pyStr v | none => "Pending review..."
    coderabbit_badge :=
      match jGet kvs "badge" with | some v => pyStr v | none => "Unknown" }

/-- Strategy 2 then 3 for the grade. -/
def gradeSearch (body : String) : Option String :=
  reSearch boldGradeRe body <|> reSearch looseGradeRe body

/-- Strategy 2 then 3 for the verdict. -/
def verdictSearch (body : String) : Option String :=
  reSearch boldVerdictRe body <|> reSearch looseVerdictRe body

/-- Strategy 2 then 3 for the badge. -/
def badgeSearch (body : String) : Option String :=
  reSearch boldBadgeRe body <|> reSearch looseBadgeRe body

/-- The triple returned when no valid fenced JSON block is found. -/
def fallbackResult (body : String) : CRResult :=
  { quality_grade := (gradeSearch body).getD "Pending"
    verdict := ((verdictSearch body).map pyStrip).getD (extract_first_roast body)
    coderabbit_badge := ((badgeSearch body).map pyStrip).getD "Unknown" }

/-- `judge.parse_coderabbit_response`.  `none` models the uncaught
`AttributeError` raised by `data.get` when the fenced block decodes to a
non-object JSON value (only `json.JSONDecodeError` is caught). -/
def parse_coderabbit_response (body : String) : Option CRResult :=
  match reSearch jsonBlockRe body with
  | some content =>
    match jsonLoads content with
    | some (.obj kvs) => some (jsonTriple kvs)
    | some _ => none
    | none => some (fallbackResult body)
  | none => some (fallbackResult body)

/-! ## Judge pipeline (`judge.py`)

The GitHub network is an oracle `Net`: given the list of requests issued so
far and the current request, it produces the response.  Each `requests`
call is recorded in a call log (`method`, `path`); request parameters and
JSON payloads are left to the oracle's discretion.  `save_state`, `print`
and `time.sleep` perform no network traffic and are not modelled. -/

/-- One HTTP request: method and URL path. -/
structure NetCall where
  method : String
  path : String
deriving Repr, DecidableEq

/-- A comment returned by the issue-comments endpoint (the fields read by
`phase_poll`). -/
structure PollComment where
  login : String
  body : String
deriving Repr, DecidableEq

/-- A GitHub response: status plus the JSON fields / headers the pipeline
reads (each endpoint uses the relevant fields and ignores the rest). -/
structure GhResp where
  status : Nat := 0
  fork : Bool := false
  full_name : String := ""
  default_branch : String := ""
  number : Nat := 0
  link : String := ""
  shas : List String := []
  prNumbers : List Nat := []
  login : String := ""
  comments : List PollComment := []
deriving Repr

/-- The network oracle: response as a function of the call history and the
current call. -/
abbrev Net := List NetCall → NetCall → GhResp

/-- Per-user judge state entry (`state[username]`).  Every key is optional
(dict entries are created incrementally); `comment_posted` and
`response_parsed` are only ever set to `True`. -/
structure UserState where
  fork_name : Option String := none
  repo_name : Option String := none
  pr_number : Option Nat := none
  default_branch : Option String := none
  comment_posted : Bool := false
  comment_time : Option String := none
  response_parsed : Bool := false
  result : Option CRResult := none
  raw_response : Option String := none
  error : Option String := none
deriving Repr, DecidableEq

/-- The judge state dict: username → entry (`none` = key absent). -/
def JState := String → Option UserState

/-- The empty state (`load_state` when no state file exists). -/
def emptyJState : JState := fun _ => none

/-- `state.get(username, {})`. -/
def getU (st : JState) (u : String) : UserState := (st u).getD {}

/-- `state.setdefault(username, {})` followed by in-place mutation (also
models `state[username][k] = v`, which the source only performs on existing
entries). -/
def updU (st : JState) (u : String) (f : UserState → UserState) : JState :=
  fun v => if v = u then some (f (getU st u)) else st v

/-- Python truthiness of an optional string (`if user_state.get(k):`). -/
def truthyS (o : Option String) : Bool := o.getD "" ≠ ""

/-- Python truthiness of an optional int. -/
def truthyN (o : Option Nat) : Bool := o.getD 0 ≠ 0

/-- `ORPHAN_BRANCH`. -/
def ORPHAN_BRANCH : String := "wall-of-shame-baseline"

/-- `judge.gh`: up to `retries` attempts, retrying on 502/503/429, returning
the last response; every attempt is one network request, appended to the
log. -/
def gh (net : Net) (m p : String) : Nat → List NetCall → GhResp × List NetCall
  | 0, log => (net log ⟨m, p⟩, log ++ [⟨m, p⟩])
  | r + 1, log =>
    if (net log ⟨m, p⟩).status = 502 ∨ (net log ⟨m, p⟩).status = 503 ∨
        (net log ⟨m, p⟩).status = 429 then
      if r = 0 then (net log ⟨m, p⟩, log ++ [⟨m, p⟩])
      else gh net m p r (log ++ [⟨m, p⟩])
    else (net log ⟨m, p⟩, log ++ [⟨m, p⟩])

/-- `judge.fork_repo`: reuse an existing fork, else create one; `none` on
404 or any other failure. -/
def fork_repo (net : Net) (owner repo auth_user : String) (log : List NetCall) :
    Option String × List NetCall :=
  let (r1, log) := gh net "GET" ("/repos/" ++ auth_user ++ "/" ++ repo) 3 log
  if r1.status = 200 ∧ r1.fork then (some r1.full_name, log)
  else
    let (r2, log) := gh net "POST" ("/repos/" ++ owner ++ "/" ++ repo ++ "/forks") 3 log
    if r2.status = 200 ∨ r2.status = 202 then (some r2.full_name, log)
    else (none, log)

/-- The body of `phase_fork`'s per-user loop. -/
def forkStep (net : Net) (auth_user : String) (acc : JState × List NetCall)
    (p : String × List String) : JState × List NetCall :=
  let (st, log) := acc
  let u := p.1
  if truthyS (getU st u).fork_name then (st, log)
  else
    match p.2 with
    | [] => (st, log)
    | repo :: _ =>
      let (fo, log) := fork_repo net u repo auth_user log
      if truthyS fo then
        (updU st u fun e => { e with fork_name := fo, repo_name := some repo }, log)
      else
        (updU st u fun e => { e with error := some "fork_failed" }, log)

/-- `judge.phase_fork`: `get_auth_user()` (one `GET /user`, aborting the
phase if `raise_for_status` raises), then fork every user's top repo.
`precomputed` is the list of `(username, top_repos)` pairs in dict order. -/
def phase_fork (net : Net) (precomputed : List (String × List String))
    (st : JState) (log : List NetCall) : JState × List NetCall :=
  let (rAuth, log) := gh net "GET" "/user" 3 log
  if 400 ≤ rAuth.status then (st, log)
  else precomputed.foldl (forkStep net rAuth.login) (st, log)

/-- `judge.create_base_branch`: locate the oldest commit via the `Link`
header's last page, then create or force-update the orphan branch there. -/
def create_base_branch (net : Net) (fork_name default_branch : String)
    (log : List NetCall) : Option String × List NetCall :=
  let (r, log) := gh net "GET" ("/repos/" ++ fork_name ++ "/commits") 3 log
  if r.status ≠ 200 then (none, log)
  else
    let (oldest, log) :=
      if substrIn "last" r.link then
        match reSearch linkLastRe r.link with
        | some lastUrl =>
          let (r2, log) := gh net "GET" lastUrl 3 log
          if r2.status = 200 then (r2.shas.getLast?, log) else (none, log)
        | none => (none, log)
      else (none, log)
    let oldest := match oldest with
      | some s => some s
      | none => r.shas.getLast?
    match oldest with
    | none => (none, log)
    | some sha =>
      if sha = "" then (none, log)
      else
        let (r3, log) := gh net "POST" ("/repos/" ++ fork_name ++ "/git/refs") 3 log
        let (r4, log) :=
          if r3.status = 422 then
            gh net "PATCH"
              ("/repos/" ++ fork_name ++ "/git/refs/heads/" ++ ORPHAN_BRANCH) 3 log
          else (r3, log)
        if r4.status = 200 ∨ r4.status = 201 then (some sha, log) else (none, log)

/-- `judge.create_pr`: reuse an existing open PR, else open a new one. -/
def create_pr (net : Net) (fork_name default_branch : String)
    (log : List NetCall) : Option Nat × List NetCall :=
  let (r, log) := gh net "GET" ("/repos/" ++ fork_name ++ "/pulls") 3 log
  match (if r.status = 200 then r.prNumbers.head? else none) with
  | some n => (some n, log)
  | none =>
    let (r2, log) := gh net "POST" ("/repos/" ++ fork_name ++ "/pulls") 3 log
    if r2.status = 200 ∨ r2.status = 201 then (some r2.number, log)
    else (none, log)

/-- The body of `phase_pr`'s per-user loop. -/
def prStep (net : Net) (acc : JState × List NetCall) (u : String) :
    JState × List NetCall :=
  let (st, log) := acc
  let us := getU st u
  if ¬ truthyS us.fork_name then (st, log)
  else if truthyN us.pr_number then (st, log)
  else
    let fn := us.fork_name.getD ""
    let (r, log) := gh net "GET" ("/repos/" ++ fn) 3 log
    if r.status ≠ 200 then (st, log)
    else
      let db := r.default_branch
      let (sha, log) := create_base_branch net fn db log
      if ¬ truthyS sha then (st, log)
      else
        let (pr, log) := create_pr net fn db log
        if truthyN pr then
          (updU st u fun e => { e with pr_number := pr, default_branch := some db }, log)
        else (st, log)

/-- `judge.phase_pr` over the usernames of `precomputed`, in dict order. -/
def phase_pr (net : Net) (users : List String) (st : JState)
    (log : List NetCall) : JState × List NetCall :=
  users.foldl (prStep net) (st, log)

/-- The body of `phase_comment`'s per-user loop; `now u` is the wall-clock
timestamp recorded as `comment_time`. -/
def commentStep (net : Net) (now : String → String)
    (acc : JState × List NetCall) (u : String) : JState × List NetCall :=
  let (st, log) := acc
  let us := getU st u
  if ¬ truthyN us.pr_number then (st, log)
  else if us.comment_posted then (st, log)
  else
    let fn := us.fork_name.getD ""
    let pr := us.pr_number.getD 0
    let path := "/repos/" ++ fn ++ "/issues/" ++ toString pr ++ "/comments"
    let (_r1, log) := gh net "POST" path 3 log
    let (r2, log) := gh net "POST" path 3 log
    if r2.status = 200 ∨ r2.status = 201 then
      (updU st u fun e =>
        { e with comment_posted := true, comment_time := some (now u) }, log)
    else (st, log)

/-- `judge.phase_comment` over the usernames of `precomputed`. -/
def phase_comment (net : Net) (now : String → String) (users : List String)
    (st : JState) (log : List NetCall) : JState × List NetCall :=
  users.foldl (commentStep net now) (st, log)

/-- The boilerplate phrases skipped by the poll loop. -/
def skipPhrases : List String :=
  ["auto-generated comment", "Review skipped", "Actions performed",
   "Review triggered", "finishing_touch_checkbox"]

/-- Does a comment qualify as the bot's reply?  (CodeRabbit author, no
boilerplate phrase, at least 200 characters.) -/
def qualifies (c : PollComment) : Bool :=
  substrIn "coderabbit" c.login.toLower &&
    !(skipPhrases.any fun p => substrIn p c.body) && !(c.body.length < 200)

/-- The `pending` list computed at the top of `phase_poll`: users with a
posted comment and no parsed response yet. -/
def pollPending (users : List String) (st : JState) : List String :=
  users.filter fun u =>
    (getU st u).comment_posted ∧ ¬ (getU st u).response_parsed

/-- One pass of the poll loop over the pending users.  Returns the state,
log, users still pending, and whether the pass crashed (an uncaught
exception from `parse_coderabbit_response` aborts the phase). -/
def pollRound (net : Net) : List String → JState → List NetCall →
    JState × List NetCall × List String × Bool
  | [], st, log => (st, log, [], false)
  | u :: rest, st, log =>
    let us := getU st u
    let path := "/repos/" ++ us.fork_name.getD "" ++ "/issues/" ++
      toString (us.pr_number.getD 0) ++ "/comments"
    let (r, log) := gh net "GET" path 3 log
    if r.status ≠ 200 then
      let (st', log', pend, cr) := pollRound net rest st log
      (st', log', u :: pend, cr)
    else
      match r.comments.find? qualifies with
      | some c =>
        match parse_coderabbit_response c.body with
        | none => (st, log, [], true)
        | some res =>
          let st := updU st u fun e =>
            { e with response_parsed := true, result := some res,
                     raw_response := some c.body }
          pollRound net rest st log
      | none =>
        let (st', log', pend, cr) := pollRound net rest st log
        (st', log', u :: pend, cr)

/-- The placeholder result written for users that time out. -/
def pendingResult : CRResult := ⟨"Pending", "Pending review…", "Unknown"⟩

/-- The poll `while` loop; wall-clock timeout is modelled by `fuel` rounds.
`none` in the third component means the phase crashed. -/
def pollLoop (net : Net) : Nat → List String → JState → List NetCall →
    JState × List NetCall × Option (List String)
  | 0, pending, st, log => (st, log, some pending)
  | f + 1, pending, st, log =>
    if pending.isEmpty then (st, log, some [])
    else
      let (st, log, pend', cr) := pollRound net pending st log
      if cr then (st, log, none)
      else pollLoop net f pend' st log

/-- `judge.phase_poll`: poll the pending users' PRs for the bot's reply,
then record the `"Pending"` placeholder for those that timed out. -/
def phase_poll (net : Net) (fuel : Nat) (users : List String) (st : JState)
    (log : List NetCall) : JState × List NetCall :=
  let pending := pollPending users st
  if pending.isEmpty then (st, log)
  else
    match pollLoop net fuel pending st log with
    | (st, log, none) => (st, log)
    | (st, log, some rem) =>
      (rem.foldl (fun s u => updU s u fun e => { e with result := some pendingResult }) st,
       log)

/-- One invocation of a phase function, as selected by `main`'s phase list
(`report` touches no per-user state and is omitted; the claims quantify over
the four state-bearing phases). -/
inductive Phase where
  | fork
  | pr
  | comment
  | poll (fuel : Nat)

/-- Run one phase, threading state and call log. -/
def runPhase (net : Net) (precomputed : List (String × List String))
    (now : String → String) (acc : JState × List NetCall) :
    Phase → JState × List NetCall
  | .fork => phase_fork net precomputed acc.1 acc.2
  | .pr => phase_pr net (precomputed.map (·.1)) acc.1 acc.2
  | .comment => phase_comment net now (precomputed.map (·.1)) acc.1 acc.2
  | .poll fuel => phase_poll net fuel (precomputed.map (·.1)) acc.1 acc.2

/-- Run a sequence of phases from a starting state. -/
def runPhases (net : Net) (precomputed : List (String × List String))
    (now : String → String) (seq : List Phase) (acc : JState × List NetCall) :
    JState × List NetCall :=
  seq.foldl (runPhase net precomputed now) acc

/-- The phase-order invariant on one state entry: a PR number only with a
fork name, a posted comment only with a PR number. -/
def entryInv (e : UserState) : Prop :=
  (e.pr_number ≠ none → e.fork_name ≠ none) ∧
    (e.comment_posted = true → e.pr_number ≠ none)

/-- The phase-order invariant on the whole judge state. -/
def stateInv (st : JState) : Prop := ∀ u, entryInv (getU st u)

/-! ## Concrete instances used by witnesses and counterexamples -/

/-- The float score read for pair `p = (idx, axis)` (0 when out of range;
the hypotheses of the theorems below rule the out-of-range case out). -/
def scoreAt (results : String → List ℚ) (p : Nat × String) : ℚ :=
  ((results p.2).get? p.1).getD 0

/-- Numeric value of a grade for comparisons (`-2` sorts below every entry
of `GRADE_ORDER`). -/
def gradeVal (g : String) : Int := (Export.GRADE_ORDER g).getD (-2)

/-- A classifier oracle assigning score `1/2` on the `toxicity` axis to the
text `"b"` and `0` everywhere else. -/
def predDemo : Predict := fun ts =>
  some fun a =>
    if a = "toxicity" then ts.map fun t => if t = "b" then (1 : ℚ) / 2 else 0
    else ts.map fun _ => 0

/-- `predDemo`'s score table on the input `["a", "b"]`. -/
def resultsDemo : String → List ℚ := fun a =>
  if a = "toxicity" then ["a", "b"].map fun t => if t = "b" then (1 : ℚ) / 2 else 0
  else ["a", "b"].map fun _ => 0

/-- A classifier oracle assigning score `0` to every `(text, axis)` pair. -/
def predZero : Predict := fun ts => some fun _ => ts.map fun _ => (0 : ℚ)

/-- A network oracle that always answers 200 with login `"judge"`. -/
def netOk : Net := fun _ _ => { status := 200, login := "judge" }

/-- A network oracle answering the auth probe with 200/login `"judge"` and
everything else with 404. -/
def net404 : Net := fun _ c =>
  if c.path = "/user" then { status := 200, login := "judge" } else { status := 404 }

/-- A one-user judge state whose fork, PR and comment phases already ran. -/
def stForked : JState := fun v =>
  if v = "alice" then
    some { fork_name := some "judge/r", pr_number := some 5, comment_posted := true }
  else none

/-! ## Helper lemmas: the worst-commit scan -/

theorem scanPairs_eq (results : String → List ℚ) :
    ∀ (l : List (Nat × String)) (acc : Option (Nat × String) × ℚ),
      (∀ p ∈ l, ((results p.2).get? p.1).isSome) →
      scanPairs results l acc = some (l.foldl (bestStep (scoreAt results)) acc)
  | [], _, _ => rfl
  | p :: rest, acc, h => by
    obtain ⟨sc, hsc⟩ := Option.isSome_iff_exists.mp (h p (by simp))
    have hs : scoreAt results p = sc := by unfold scoreAt; rw [hsc]; rfl
    simp only [scanPairs, hsc, List.foldl_cons, bestStep, hs]
    exact scanPairs_eq results rest _ (fun q hq => h q (by simp [hq]))

theorem bestFold_spec (f : α → ℚ) :
    ∀ (l : List α) (a : Option α) (m : ℚ),
      (l.foldl (bestStep f) (a, m) = (a, m) ∧ ∀ p ∈ l, f p ≤ m) ∨
      (∃ i, ∃ hi : i < l.length,
        (l.foldl (bestStep f) (a, m)).1 = some (l.get ⟨i, hi⟩) ∧
        (l.foldl (bestStep f) (a, m)).2 = f (l.get ⟨i, hi⟩) ∧
        m < f (l.get ⟨i, hi⟩) ∧
        (∀ q ∈ l.take i, f q < f (l.get ⟨i, hi⟩)) ∧
        (∀ q ∈ l, f q ≤ f (l.get ⟨i, hi⟩)))
  | [], a, m => Or.inl ⟨rfl, by simp⟩
  | p :: rest, a, m => by
    by_cases h : f p > m
    · have hstep : bestStep f (a, m) p = (some p, f p) := by simp [bestStep, h]
      rcases bestFold_spec f rest (some p) (f p) with ⟨heq, hle⟩ | ⟨i, hi, h1, h2, h3, h4, h5⟩
      · refine Or.inr ⟨0, by simp, ?_, ?_, ?_, ?_, ?_⟩
        · simp [List.foldl_cons, hstep, heq]
        · simp [List.foldl_cons, hstep, heq]
        · simpa using h
        · simp
        · intro q hq
          rcases List.mem_cons.mp hq with rfl | hq
          · simp
          · simpa using hle q hq
      · refine Or.inr ⟨i + 1, by simpa using Nat.succ_lt_succ hi, ?_, ?_, ?_, ?_, ?_⟩
        · simpa [List.foldl_cons, hstep] using h1
        · simpa [List.foldl_cons, hstep] using h2
        · exact lt_trans h h3
        · intro q hq
          rcases List.mem_cons.mp (by simpa using hq) with rfl | hq'
          · simpa using lt_of_le_of_lt (le_refl (f q)) (lt_of_le_of_lt (le_of_eq rfl) h3)
          · exact h4 q hq'
        · intro q hq
          rcases List.mem_cons.mp hq with rfl | hq'
          · exact le_of_lt h3
          · exact h5 q hq'
    · have hstep : bestStep f (a, m) p = (a, m) := by simp [bestStep, h]
      have hpm : f p ≤ m := not_lt.mp h
      rcases bestFold_spec f rest a m with ⟨heq, hle⟩ | ⟨i, hi, h1, h2, h3, h4, h5⟩
      · refine Or.inl ⟨by simp [List.foldl_cons, hstep, heq], ?_⟩
        intro q hq
        rcases List.mem_cons.mp hq with rfl | hq'
        · exact hpm
        · exact hle q hq'
      · refine Or.inr ⟨i + 1, by simpa using Nat.succ_lt_succ hi, ?_, ?_, ?_, ?_, ?_⟩
        · simpa [List.foldl_cons, hstep] using h1
        · simpa [List.foldl_cons, hstep] using h2
        · exact h3
        · intro q hq
          rcases List.mem_cons.mp (by simpa using hq) with rfl | hq'
          · exact lt_of_le_of_lt hpm h3
          · exact h4 q hq'
        · intro q hq
          rcases List.mem_cons.mp hq with rfl | hq'
          · exact le_of_lt (lt_of_le_of_lt hpm h3)
          · exact h5 q hq'

/-- The argmax fold keeps a `some` accumulator. -/
theorem argmaxFold_some :
    ∀ (xs : List (Nat × ℚ)) (q : Nat × ℚ),
      ∃ r, xs.foldl Precompute.argmaxStep (some q) = some r
  | [], q => ⟨q, rfl⟩
  | x :: xs, q => by
    rw [List.foldl_cons]
    by_cases h : x.2 > q.2
    · rw [show Precompute.argmaxStep (some q) x = some x by
        simp [Precompute.argmaxStep, h]]
      exact argmaxFold_some xs x
    · rw [show Precompute.argmaxStep (some q) x = some q by
        simp [Precompute.argmaxStep, h]]
      exact argmaxFold_some xs q

/-- The argmax fold's result comes from the processed list or the initial
accumulator. -/
theorem argmaxFold_mem :
    ∀ (xs : List (Nat × ℚ)) (acc : Option (Nat × ℚ)) (r : Nat × ℚ),
      xs.foldl Precompute.argmaxStep acc = some r → r ∈ xs ∨ acc = some r
  | [], _, r => fun h => Or.inr h
  | x :: xs, acc, r => by
    intro h
    rw [List.foldl_cons] at h
    match acc with
    | none =>
      rw [show Precompute.argmaxStep none x = some x from rfl] at h
      rcases argmaxFold_mem xs (some x) r h with hm | he
      · exact Or.inl (List.mem_cons_of_mem _ hm)
      · exact Or.inl (by simp at he; simp [he])
    | some q =>
      by_cases hx : x.2 > q.2
      · rw [show Precompute.argmaxStep (some q) x = some x by
          simp [Precompute.argmaxStep, hx]] at h
        rcases argmaxFold_mem xs (some x) r h with hm | he
        · exact Or.inl (List.mem_cons_of_mem _ hm)
        · exact Or.inl (by simp at he; simp [he])
      · rw [show Precompute.argmaxStep (some q) x = some q by
          simp [Precompute.argmaxStep, hx]] at h
        rcases argmaxFold_mem xs (some q) r h with hm | he
        · exact Or.inl (List.mem_cons_of_mem _ hm)
        · exact Or.inr he

/-- On a nonempty list, `argmaxFirst` returns a valid index. -/
theorem argmaxFirst_spec (l : List ℚ) (h : l ≠ []) :
    ∃ i, Precompute.argmaxFirst l = some i ∧ ∃ v, l.get? i = some v := by
  match l, h with
  | x :: xs, _ =>
    have henum : (x :: xs).enum = (0, x) :: xs.enumFrom 1 := rfl
    obtain ⟨r, hr⟩ := argmaxFold_some (xs.enumFrom 1) (0, x)
    have hfold : (x :: xs).enum.foldl Precompute.argmaxStep none = some r := by
      rw [henum, List.foldl_cons]
      exact hr
    have hmem : r ∈ (x :: xs).enum := by
      rcases argmaxFold_mem (xs.enumFrom 1) (some (0, x)) r hr with hm | he
      · rw [henum]
        exact List.mem_cons_of_mem _ hm
      · rw [henum]
        simp only [Option.some.injEq] at he
        simp [← he]
    refine ⟨r.1, by simp [Precompute.argmaxFirst, hfold], r.2, ?_⟩
    rw [List.get?_eq_getElem?]
    exact List.mem_enum_iff_getElem?.mp hmem

/-- Membership in the scanned pair list. -/
theorem mem_toxPairs (n : Nat) (p : Nat × String) :
    p ∈ toxPairs n ↔ p.1 < n ∧ p.2 ∈ AXES := by
  constructor
  · intro h
    simp only [toxPairs, List.mem_flatMap, List.mem_range, List.mem_map] at h
    obtain ⟨i, hi, a, ha, rfl⟩ := h
    exact ⟨hi, ha⟩
  · intro ⟨h1, h2⟩
    simp only [toxPairs, List.mem_flatMap, List.mem_range, List.mem_map]
    exact ⟨p.1, h1, p.2, h2, rfl⟩

/-- `mapM` over `Option` succeeds when every component does. -/
theorem mapM_option_isSome {α β : Type} (f : α → Option β) :
    ∀ l : List α, (∀ a ∈ l, (f a).isSome) → ∃ r, l.mapM f = some r
  | [], _ => ⟨[], rfl⟩
  | a :: l, h => by
    obtain ⟨b, hb⟩ := Option.isSome_iff_exists.mp (h a (by simp))
    obtain ⟨r, hr⟩ := mapM_option_isSome f l (fun x hx => h x (by simp [hx]))
    refine ⟨b :: r, ?_⟩
    rw [List.mapM_cons, hb, hr]
    rfl

/-- C8: on the empty list of texts, `analyze_toxicity` (both the
`toxicity.py` and the `precompute.py` version) returns all six axes as `0.0`,
and `find_worst_commit` (both versions) returns `None`. -/
theorem empty_input_all_zero (predict : Predict) :
    (Toxicity.analyze_toxicity predict []).toxicity = 0 ∧
    (Toxicity.analyze_toxicity predict []).severe_toxicity = 0 ∧
    (Toxicity.analyze_toxicity predict []).obscene = 0 ∧
    (Toxicity.analyze_toxicity predict []).threat = 0 ∧
    (Toxicity.analyze_toxicity predict []).insult = 0 ∧
    (Toxicity.analyze_toxicity predict []).identity_attack = 0 ∧
    Toxicity.find_worst_commit predict [] = none ∧
    Precompute.find_worst_commit predict [] = none ∧
    (Precompute.analyze_toxicity predict []).toxicity = 0 ∧
    (Precompute.analyze_toxicity predict []).severe_toxicity = 0 ∧
    (Precompute.analyze_toxicity predict []).obscene = 0 ∧
    (Precompute.analyze_toxicity predict []).threat = 0 ∧
    (Precompute.analyze_toxicity predict []).insult = 0 ∧
    (Precompute.analyze_toxicity predict []).identity_attack = 0 :=
  ⟨rfl, rfl, rfl, rfl, rfl, rfl, rfl, rfl, rfl, rfl, rfl, rfl, rfl, rfl⟩

/-- C9: on a non-empty input whose classifier scores are all `≤ 0.0` (for
example all exactly `0.0`), `find_worst_commit` returns `None`: a candidate
is kept only when its score strictly exceeds the initial threshold `0.0`. -/
theorem find_worst_none_when_no_positive (predict : Predict)
    (texts : List String) (results : String → List ℚ)
    (hne : texts ≠ [])
    (hp : predict texts = some results)
    (hlen : ∀ a ∈ AXES, (results a).length = texts.length)
    (hnonpos : ∀ p ∈ toxPairs texts.length, scoreAt results p ≤ 0) :
    Toxicity.find_worst_commit predict texts = none ∧
    Precompute.find_worst_commit predict texts = none := by
  have hsome : ∀ p ∈ toxPairs texts.length, ((results p.2).get? p.1).isSome := by
    intro p hp'
    obtain ⟨h1, h2⟩ := (mem_toxPairs _ _).mp hp'
    have hlt : p.1 < (results p.2).length := by
      rw [hlen p.2 h2]
      exact h1
    rw [List.get?_eq_getElem?, List.getElem?_eq_getElem hlt]
    rfl
  have hscan := scanPairs_eq results (toxPairs texts.length) (none, 0) hsome
  have hempty : texts.isEmpty = false := by
    simp [List.isEmpty_iff, hne]
  rcases bestFold_spec (scoreAt results) (toxPairs texts.length) none 0 with
    ⟨heq, _⟩ | ⟨i, hi, _, _, h3, _, _⟩
  · rw [heq] at hscan
    constructor
    · unfold Toxicity.find_worst_commit
      simp [hempty, hp, hscan]
    · unfold Precompute.find_worst_commit Toxicity.find_worst_commit
      simp [hempty, hp, hscan]
  · exact absurd (hnonpos _ (List.get_mem _ _ _)) (not_le.mpr h3)

/-- C9 witness: the all-zero classifier on `["a"]`. -/
theorem find_worst_none_when_no_positive_witness :
    (["a"] : List String) ≠ [] ∧
    Toxicity.find_worst_commit predZero ["a"] = none ∧
    Precompute.find_worst_commit predZero ["a"] = none :=
  ⟨by decide,
   (find_worst_none_when_no_positive predZero ["a"]
      (fun _ => ["a"].map fun _ => (0 : ℚ)) (by decide) rfl (by decide)
      (by decide)).1,
   (find_worst_none_when_no_positive predZero ["a"]
      (fun _ => ["a"].map fun _ => (0 : ℚ)) (by decide) rfl (by decide)
      (by decide)).2⟩

/-- C4 (amended): for a non-empty input with a complete classifier score
assignment, `precompute.analyze_toxicity` returns on each of the six axes the
arithmetic mean of that axis's per-item scores, and — provided at least one
`(text, axis)` pair scores strictly above `0.0` —
`toxicity.find_worst_commit` returns the pair with the highest score,
breaking ties by first occurrence in the scan order (text index major, the
fixed axis order `AXES` within a text). -/
theorem analyze_mean_and_find_worst_max (predict : Predict)
    (texts : List String) (results all : String → List ℚ)
    (hne : texts ≠ [])
    (hp : predict texts = some results)
    (hg : Precompute.gatherScores predict texts = some all)
    (hlt : (all "toxicity").length = texts.length)
    (hlen : ∀ a ∈ AXES, (results a).length = texts.length) :
    ((Precompute.analyze_toxicity predict texts).toxicity =
        qmean (all "toxicity") ∧
      (Precompute.analyze_toxicity predict texts).severe_toxicity =
        qmean (all "severe_toxicity") ∧
      (Precompute.analyze_toxicity predict texts).obscene =
        qmean (all "obscene") ∧
      (Precompute.analyze_toxicity predict texts).threat =
        qmean (all "threat") ∧
      (Precompute.analyze_toxicity predict texts).insult =
        qmean (all "insult") ∧
      (Precompute.analyze_toxicity predict texts).identity_attack =
        qmean (all "identity_attack")) ∧
    ((∃ p ∈ toxPairs texts.length, 0 < scoreAt results p) →
      ∃ i, ∃ hi : i < (toxPairs texts.length).length, ∃ w,
      Toxicity.find_worst_commit predict texts = some w ∧
      w.toxicity_axis = ((toxPairs texts.length).get ⟨i, hi⟩).2 ∧
      texts.get? ((toxPairs texts.length).get ⟨i, hi⟩).1 = some w.message ∧
      w.toxicity_score = scoreAt results ((toxPairs texts.length).get ⟨i, hi⟩) ∧
      (∀ q ∈ toxPairs texts.length, scoreAt results q ≤ w.toxicity_score) ∧
      (∀ q ∈ (toxPairs texts.length).take i,
        scoreAt results q < w.toxicity_score)) := by
  have hempty : texts.isEmpty = false := by simp [List.isEmpty_iff, hne]
  constructor
  · -- means of precompute.analyze_toxicity
    have htoxne : all "toxicity" ≠ [] := by
      intro hnil
      rw [hnil] at hlt
      exact hne (List.length_eq_zero.mp hlt.symm)
    obtain ⟨wi, hargmax, v, hget⟩ := argmaxFirst_spec (all "toxicity") htoxne
    have hwi : wi < texts.length := by
      rw [← hlt]
      rw [List.get?_eq_getElem?] at hget
      exact (List.getElem?_eq_some_iff.mp hget).1
    obtain ⟨msg, hmsg⟩ :=
      Option.isSome_iff_exists.mp (by
        rw [List.get?_eq_getElem?, List.getElem?_eq_getElem hwi]
        rfl : (texts.get? wi).isSome)
    unfold Precompute.analyze_toxicity
    simp only [hempty, Bool.false_eq_true, if_false, hg, hargmax, hget, hmsg]
    exact ⟨trivial, trivial, trivial, trivial, trivial, trivial⟩
  · -- the worst-commit scan
    intro hpos
    have hsome : ∀ p ∈ toxPairs texts.length, ((results p.2).get? p.1).isSome := by
      intro p hp'
      obtain ⟨h1, h2⟩ := (mem_toxPairs _ _).mp hp'
      have hl : p.1 < (results p.2).length := by
        rw [hlen p.2 h2]
        exact h1
      rw [List.get?_eq_getElem?, List.getElem?_eq_getElem hl]
      rfl
    have hscan := scanPairs_eq results (toxPairs texts.length) (none, 0) hsome
    rcases bestFold_spec (scoreAt results) (toxPairs texts.length) none 0 with
      ⟨_, hle⟩ | ⟨i, hi, h1, h2, _, h4, h5⟩
    · obtain ⟨p, hpmem, hppos⟩ := hpos
      exact absurd (hle p hpmem) (not_le.mpr hppos)
    · set pairs := toxPairs texts.length with hpairs
      set P := pairs.get ⟨i, hi⟩ with hP
      have hPmem : P ∈ pairs := List.get_mem _ _ _
      obtain ⟨hP1, hP2⟩ := (mem_toxPairs _ _).mp hPmem
      obtain ⟨msg, hmsg⟩ :=
        Option.isSome_iff_exists.mp (by
          rw [List.get?_eq_getElem?, List.getElem?_eq_getElem hP1]
          rfl : (texts.get? P.1).isSome)
      obtain ⟨allS, hallS⟩ := mapM_option_isSome
        (fun a => ((results a).get? P.1).map fun q => (a, q)) AXES
        (fun a ha => by
          have hl : P.1 < (results a).length := by
            rw [hlen a ha]
            exact hP1
          show (((results a).get? P.1).map fun q => (a, q)).isSome = true
          rw [List.get?_eq_getElem?, List.getElem?_eq_getElem hl]
          rfl)
      have hfold :
          pairs.foldl (bestStep (scoreAt results)) (none, 0) =
            (some P, scoreAt results P) := by
        have := Prod.mk.eta (p := pairs.foldl (bestStep (scoreAt results)) (none, 0))
        rw [← this, h1, h2]
      refine ⟨i, hi, ⟨msg, P.2, scoreAt results P, allS⟩, ?_, rfl, by rw [hmsg], rfl,
        ?_, ?_⟩
      · unfold Toxicity.find_worst_commit
        rw [hfold] at hscan
        simp only [hempty, Bool.false_eq_true, if_false, hp, hscan]
        have hPeta : P = (P.1, P.2) := rfl
        rw [hPeta] at hscan ⊢
        simp only [hmsg, hallS]
      · intro q hq
        exact h2 ▸ h5 q hq
      · intro q hq
        exact h2 ▸ h4 q hq

/-- C4 counterexample: on the non-empty input `["a"]` with the classifier
assigning `0.0` to every `(text, axis)` pair, `find_worst_commit` returns
`None` instead of the maximal pair, because a candidate must strictly exceed
the initial threshold `0.0`. -/
theorem find_worst_not_argmax_at_zero :
    Toxicity.find_worst_commit predZero ["a"] = none := by rfl

/-- C4 witness: a classifier scoring `1/2` for `("b", toxicity)` and `0`
elsewhere on the input `["a", "b"]`. -/
theorem analyze_mean_and_find_worst_max_witness :
    (∃ p ∈ toxPairs 2, 0 < scoreAt resultsDemo p) ∧
    (Precompute.analyze_toxicity predDemo ["a", "b"]).toxicity =
      qmean ((Precompute.gatherScores predDemo ["a", "b"]).getD
        (fun _ => []) "toxicity") ∧
    ∃ w, Toxicity.find_worst_commit predDemo ["a", "b"] = some w := by
  have hpos : ∃ p ∈ toxPairs 2, 0 < scoreAt resultsDemo p := by
    refine ⟨(1, "toxicity"), by decide, ?_⟩
    norm_num +decide [scoreAt, resultsDemo]
  have h := analyze_mean_and_find_worst_max predDemo ["a", "b"] resultsDemo
    ((Precompute.gatherScores predDemo ["a", "b"]).getD (fun _ => []))
    (by decide) rfl rfl (by decide) (by decide)
  refine ⟨hpos, h.1.1, ?_⟩
  obtain ⟨_, _, w, hw, _⟩ := h.2 hpos
  exact ⟨w, hw⟩

/-! ## Helper lemmas: grade curving -/

theorem lookup_mem {β : Type} {l : List (String × β)} {u : String} {r : β}
    (h : List.lookup u l = some r) : (u, r) ∈ l := by
  obtain ⟨l1, l2, rfl, -⟩ := List.lookup_eq_some_iff.mp h
  simp

theorem mem_lookup_of_nodup {β : Type} :
    ∀ {l : List (String × β)}, (l.map (·.1)).Nodup →
      ∀ {u : String} {r : β}, (u, r) ∈ l → List.lookup u l = some r
  | [], _, _, _, h => by simp at h
  | (k, b) :: t, hnd, u, r, h => by
    rcases List.mem_cons.mp h with heq | hmem
    · cases heq
      simp [List.lookup]
    · have hne : u ≠ k := by
        rintro rfl
        have : u ∈ t.map (·.1) := List.mem_map.mpr ⟨(u, r), hmem, rfl⟩
        exact (List.nodup_cons.mp hnd).1 this
      have hbeq : (u == k) = false := by simp [hne]
      simp only [List.lookup, hbeq]
      exact mem_lookup_of_nodup (List.nodup_cons.mp hnd).2 hmem

theorem setGrade_cons (u g k : String) (r : Export.JResult)
    (t : List (String × Export.JResult)) :
    Export.setGrade ((k, r) :: t) u g =
      (if k = u then (k, { r with quality_grade := some g }) else (k, r)) ::
        Export.setGrade t u g := by
  simp [Export.setGrade]

theorem lookup_setGrade (u g : String) :
    ∀ (l : List (String × Export.JResult)) (v : String),
      List.lookup v (Export.setGrade l u g) =
        if v = u then
          (List.lookup v l).map fun r => { r with quality_grade := some g }
        else List.lookup v l
  | [], v => by
    simp [Export.setGrade]
  | (k, r) :: t, v => by
    rw [setGrade_cons]
    by_cases hk : k = u
    · rw [if_pos hk]
      by_cases hv : v = k
      · have hvu : v = u := hv.trans hk
        have hbeq : (v == k) = true := by simp [hv]
        simp only [List.lookup, hbeq, if_pos hvu]
        rfl
      · have hbeq : (v == k) = false := by simp [hv]
        simp only [List.lookup, hbeq]
        rw [lookup_setGrade u g t v]
    · rw [if_neg hk]
      by_cases hv : v = k
      · have hvu : v ≠ u := fun he => hk (hv.symm.trans he)
        have hbeq : (v == k) = true := by simp [hv]
        simp only [List.lookup, hbeq, if_neg hvu]
      · have hbeq : (v == k) = false := by simp [hv]
        simp only [List.lookup, hbeq]
        rw [lookup_setGrade u g t v]

theorem lookup_assignGrades_not_mem (n : Nat) :
    ∀ (ranked : List (Nat × String × Int)) (acc : List (String × Export.JResult))
      (u : String), u ∉ ranked.map (·.2.1) →
      List.lookup u (Export.assignGrades ranked n acc) = List.lookup u acc
  | [], _, _, _ => rfl
  | p :: rest, acc, u, h => by
    have hne : u ≠ p.2.1 := by
      intro he
      exact h (by simp [he])
    have hrest : u ∉ rest.map (·.2.1) := by
      intro hm
      exact h (by simp [hm])
    unfold Export.assignGrades
    rw [List.foldl_cons]
    have := lookup_assignGrades_not_mem n rest
      (Export.setGrade acc p.2.1 (Export.gradeFor (Export.pct p.1 n))) u hrest
    unfold Export.assignGrades at this
    rw [this, lookup_setGrade, if_neg hne]

theorem lookup_assignGrades_mem (n : Nat) :
    ∀ (ranked : List (Nat × String × Int)) (acc : List (String × Export.JResult))
      (i : Nat) (u : String) (g : Int),
      (i, u, g) ∈ ranked → (ranked.map (·.2.1)).Nodup →
      List.lookup u (Export.assignGrades ranked n acc) =
        (List.lookup u acc).map fun r =>
          { r with quality_grade := some (Export.gradeFor (Export.pct i n)) }
  | [], _, _, _, _, h, _ => by simp at h
  | p :: rest, acc, i, u, g, h, hnd => by
    unfold Export.assignGrades
    rw [List.foldl_cons]
    rw [List.map_cons] at hnd
    have hnd2 := List.nodup_cons.mp hnd
    rcases List.mem_cons.mp h with heq | hmem
    · cases heq.symm
      have hrest : u ∉ rest.map (·.2.1) := hnd2.1
      have hskip := lookup_assignGrades_not_mem n rest
        (Export.setGrade acc u (Export.gradeFor (Export.pct i n))) u hrest
      unfold Export.assignGrades at hskip
      rw [hskip, lookup_setGrade, if_pos rfl]
    · have hne : p.2.1 ≠ u := by
        intro he
        have hmem' : u ∈ rest.map (·.2.1) := List.mem_map.mpr ⟨(i, u, g), hmem, rfl⟩
        rw [he] at hnd2
        exact hnd2.1 hmem'
      have := lookup_assignGrades_mem n rest
        (Export.setGrade acc p.2.1 (Export.gradeFor (Export.pct p.1 n))) i u g hmem
        hnd2.2
      unfold Export.assignGrades at this
      rw [this, lookup_setGrade, if_neg (fun he => hne he.symm)]

theorem insSorted_perm (x : String × Int) :
    ∀ l : List (String × Int), List.Perm (Export.insSorted x l) (x :: l)
  | [] => List.Perm.refl _
  | y :: ys => by
    unfold Export.insSorted
    by_cases h : y.2 < x.2
    · rw [if_pos h]
      exact ((insSorted_perm x ys).cons y).trans (List.Perm.swap x y ys)
    · rw [if_neg h]

theorem stableSortAsc_perm :
    ∀ l : List (String × Int), List.Perm (Export.stableSortAsc l) l
  | [] => List.Perm.refl _
  | x :: xs =>
    (insSorted_perm x (Export.stableSortAsc xs)).trans
      ((stableSortAsc_perm xs).cons x)

theorem insSorted_sorted (x : String × Int) :
    ∀ l : List (String × Int),
      l.Pairwise (fun a b => a.2 ≤ b.2) →
      (Export.insSorted x l).Pairwise (fun a b => a.2 ≤ b.2)
  | [], _ => by simp [Export.insSorted]
  | y :: ys, h => by
    obtain ⟨hy, hys⟩ := List.pairwise_cons.mp h
    unfold Export.insSorted
    by_cases hyx : y.2 < x.2
    · rw [if_pos hyx]
      refine List.pairwise_cons.mpr ⟨?_, insSorted_sorted x ys hys⟩
      intro z hz
      rcases List.mem_cons.mp ((insSorted_perm x ys).mem_iff.mp hz) with rfl | hzy
      · exact le_of_lt hyx
      · exact hy z hzy
    · rw [if_neg hyx]
      refine List.pairwise_cons.mpr ⟨?_, h⟩
      intro z hz
      rcases List.mem_cons.mp hz with rfl | hzy
      · exact le_of_not_lt hyx
      · exact le_trans (le_of_not_lt hyx) (hy z hzy)

theorem stableSortAsc_sorted :
    ∀ l : List (String × Int),
      (Export.stableSortAsc l).Pairwise (fun a b => a.2 ≤ b.2)
  | [] => List.Pairwise.nil
  | x :: xs => insSorted_sorted x _ (stableSortAsc_sorted xs)

theorem gradeFor_cases (p : ℚ) :
    Export.gradeFor p =
      if p ≤ 3 then "F" else if p ≤ 8 then "D-" else if p ≤ 15 then "D"
      else if p ≤ 23 then "D+" else if p ≤ 35 then "C-" else if p ≤ 50 then "C"
      else if p ≤ 65 then "C+" else if p ≤ 77 then "B-" else if p ≤ 88 then "B"
      else if p ≤ 95 then "B+" else if p ≤ 99 then "A-" else if p ≤ 100 then "A"
      else "A+" := by
  unfold Export.gradeFor Export.CURVE_THRESHOLDS
  norm_num [List.find?]
  split_ifs <;> simp_all [← not_le]

theorem gradeVal_gradeFor (p : ℚ) :
    gradeVal (Export.gradeFor p) =
      if p ≤ 3 then 0 else if p ≤ 8 then 2 else if p ≤ 15 then 3
      else if p ≤ 23 then 4 else if p ≤ 35 then 5 else if p ≤ 50 then 6
      else if p ≤ 65 then 7 else if p ≤ 77 then 8 else if p ≤ 88 then 9
      else if p ≤ 95 then 10 else if p ≤ 99 then 11 else if p ≤ 100 then 12
      else 13 := by
  rw [gradeFor_cases]
  simp only [apply_ite gradeVal]
  norm_num +decide [gradeVal, Export.GRADE_ORDER]

theorem getD_map_le_of_all {l : List (Nat × String)} {d : Int} {x : Nat × String}
    (hfind : ∀ y, (l.find? fun cg => (q : ℚ) ≤ (cg.1 : ℚ)) = some y → gradeVal x.2 ≤ gradeVal y.2)
    (hd : gradeVal x.2 ≤ d) :
    gradeVal x.2 ≤
      (((l.find? fun cg => (q : ℚ) ≤ (cg.1 : ℚ)).map fun y => gradeVal y.2).getD d) := by
  cases hf : l.find? fun cg => (q : ℚ) ≤ (cg.1 : ℚ) with
  | none => simpa using hd
  | some y => simpa using hfind y hf

theorem find?_gradeVal_mono {p q : ℚ} (h : p ≤ q) (d : Int) :
    ∀ l : List (Nat × String),
      (l.Pairwise fun a b => gradeVal a.2 ≤ gradeVal b.2) →
      (∀ x ∈ l, gradeVal x.2 ≤ d) →
      (((l.find? fun cg => p ≤ (cg.1 : ℚ)).map fun x => gradeVal x.2).getD d) ≤
      (((l.find? fun cg => q ≤ (cg.1 : ℚ)).map fun x => gradeVal x.2).getD d)
  | [], _, _ => le_refl d
  | c :: rest, hpw, hdall => by
    obtain ⟨hc, hpw'⟩ := List.pairwise_cons.mp hpw
    by_cases hq : q ≤ (c.1 : ℚ)
    · have hp : p ≤ (c.1 : ℚ) := le_trans h hq
      rw [List.find?_cons_of_pos _ (by simpa using hp),
          List.find?_cons_of_pos _ (by simpa using hq)]
    · by_cases hp : p ≤ (c.1 : ℚ)
      · rw [List.find?_cons_of_pos _ (by simpa using hp),
            List.find?_cons_of_neg _ (by simpa using hq)]
        refine getD_map_le_of_all ?_ (hdall c (by simp))
        intro y hy
        exact hc y (List.mem_of_find?_eq_some hy)
      · rw [List.find?_cons_of_neg _ (by simpa using hp),
            List.find?_cons_of_neg _ (by simpa using hq)]
        exact find?_gradeVal_mono h d rest hpw' fun x hx => hdall x (by simp [hx])

theorem gradeVal_gradeFor_eq (p : ℚ) :
    gradeVal (Export.gradeFor p) =
      (((Export.CURVE_THRESHOLDS.find? fun cg => p ≤ (cg.1 : ℚ)).map
        fun x => gradeVal x.2).getD (gradeVal "A+")) := by
  unfold Export.gradeFor
  cases hf : Export.CURVE_THRESHOLDS.find? fun cg => p ≤ (cg.1 : ℚ) with
  | none => simp [hf]
  | some y => simp [hf]

theorem gradeFor_mono {p q : ℚ} (h : p ≤ q) :
    gradeVal (Export.gradeFor p) ≤ gradeVal (Export.gradeFor q) := by
  rw [gradeVal_gradeFor_eq, gradeVal_gradeFor_eq]
  exact find?_gradeVal_mono h (gradeVal "A+") Export.CURVE_THRESHOLDS
    (by decide) (by decide)

theorem gradeFor_mem_table {p : ℚ} (h : p ≤ 100) :
    Export.gradeFor p ∈ Export.CURVE_THRESHOLDS.map (·.2) := by
  rw [gradeFor_cases]
  split_ifs <;> first
    | decide
    | linarith

theorem pct_mono (n : Nat) {i j : Nat} (h : i ≤ j) :
    Export.pct i n ≤ Export.pct j n := by
  unfold Export.pct
  have hd : (0 : ℚ) < ((max (n - 1) 1 : Nat) : ℚ) := by
    exact_mod_cast Nat.lt_of_lt_of_le Nat.zero_lt_one (le_max_right _ _)
  have hij : ((i : ℚ)) ≤ (j : ℚ) := by exact_mod_cast h
  gcongr

theorem pct_le_100 {n i : Nat} (h : i < n) : Export.pct i n ≤ 100 := by
  unfold Export.pct
  have hd : (0 : ℚ) < ((max (n - 1) 1 : Nat) : ℚ) := by
    exact_mod_cast Nat.lt_of_lt_of_le Nat.zero_lt_one (le_max_right _ _)
  have hin : (i : ℚ) ≤ ((max (n - 1) 1 : Nat) : ℚ) := by
    exact_mod_cast (by omega : i ≤ max (n - 1) 1)
  have h1 : (i : ℚ) / ((max (n - 1) 1 : Nat) : ℚ) ≤ 1 := by
    rw [div_le_one hd]
    exact hin
  nlinarith

theorem gradedOf_keys_sublist (jr : List (String × Export.JResult)) :
    ((Export.gradedOf jr).map (·.1)).Sublist (jr.map (·.1)) := by
  induction jr with
  | nil => simp [Export.gradedOf]
  | cons p t ih =>
    unfold Export.gradedOf at ih ⊢
    rw [List.filterMap_cons]
    cases hg : (Export.GRADE_ORDER (p.2.quality_grade.getD "Pending")).map
        fun n => (p.1, n) with
    | none => exact ih.trans (List.sublist_cons_self _ _)
    | some q =>
      have hq1 : q.1 = p.1 := by
        cases ho : Export.GRADE_ORDER (p.2.quality_grade.getD "Pending") with
        | none =>
          rw [ho] at hg
          exact absurd hg (by simp)
        | some m =>
          rw [ho] at hg
          have hqq : some (p.1, m) = some q := hg
          injection hqq with hqq2
          rw [← hqq2]
      rw [List.map_cons, List.map_cons, hq1]
      exact ih.cons₂ p.1

theorem enum_keys (l : List (String × Int)) :
    l.enum.map (·.2.1) = l.map (·.1) := by
  have h1 : l.enum.map (·.2.1) = (l.enum.map Prod.snd).map (·.1) := by
    rw [List.map_map]
    rfl
  rw [h1, List.enum_map_snd]

theorem mem_gradedOf {jr : List (String × Export.JResult)} {u : String}
    {r : Export.JResult} {nu : Int}
    (hlu : List.lookup u jr = some r)
    (hg : Export.GRADE_ORDER (r.quality_grade.getD "Pending") = some nu) :
    (u, nu) ∈ Export.gradedOf jr := by
  have hmem : (u, r) ∈ jr := lookup_mem hlu
  unfold Export.gradedOf
  exact List.mem_filterMap.mpr ⟨(u, r), hmem, by simp [hg]⟩

theorem curve_lookup_graded (jr : List (String × Export.JResult))
    (hnd : (jr.map (·.1)).Nodup)
    {u : String} {r : Export.JResult} {nu : Int}
    (hlu : List.lookup u jr = some r)
    (hg : Export.GRADE_ORDER (r.quality_grade.getD "Pending") = some nu) :
    ∃ i, ∃ hi : i < (Export.stableSortAsc (Export.gradedOf jr)).length,
      (Export.stableSortAsc (Export.gradedOf jr)).get ⟨i, hi⟩ = (u, nu) ∧
      List.lookup u (Export.curve_grades jr) =
        some { r with quality_grade := some (Export.gradeFor
          (Export.pct i (Export.stableSortAsc (Export.gradedOf jr)).length)) } := by
  have hmem : (u, nu) ∈ Export.gradedOf jr := mem_gradedOf hlu hg
  have hnil : Export.gradedOf jr ≠ [] := by
    intro h
    rw [h] at hmem
    simp at hmem
  have hne : (Export.gradedOf jr).isEmpty = false := by
    simp [List.isEmpty_iff, hnil]
  have hperm := stableSortAsc_perm (Export.gradedOf jr)
  have hmem2 : (u, nu) ∈ Export.stableSortAsc (Export.gradedOf jr) :=
    hperm.mem_iff.mpr hmem
  obtain ⟨⟨i, hi⟩, hget⟩ := List.mem_iff_get.mp hmem2
  have hkeysnd : ((Export.stableSortAsc (Export.gradedOf jr)).map (·.1)).Nodup :=
    ((hperm.map (·.1)).nodup_iff).mpr ((gradedOf_keys_sublist jr).nodup hnd)
  have henum_mem :
      (i, (u, nu)) ∈ (Export.stableSortAsc (Export.gradedOf jr)).enum := by
    apply List.mem_enum_iff_getElem?.mpr
    have hgetE : (Export.stableSortAsc (Export.gradedOf jr))[i] = (u, nu) :=
      (List.get_eq_getElem _ ⟨i, hi⟩).symm.trans hget
    rw [List.getElem?_eq_getElem hi, hgetE]
  have hkeys_enum :
      ((Export.stableSortAsc (Export.gradedOf jr)).enum.map (·.2.1)).Nodup := by
    rw [enum_keys]
    exact hkeysnd
  have hlook := lookup_assignGrades_mem
    (Export.stableSortAsc (Export.gradedOf jr)).length
    (Export.stableSortAsc (Export.gradedOf jr)).enum jr i u nu henum_mem hkeys_enum
  have hcurve : Export.curve_grades jr =
      Export.assignGrades (Export.stableSortAsc (Export.gradedOf jr)).enum
        (Export.stableSortAsc (Export.gradedOf jr)).length jr := by
    simp only [Export.curve_grades, hne, Bool.false_eq_true, if_false]
  rw [hlu] at hlook
  exact ⟨i, hi, hget, by rw [hcurve, hlook]; rfl⟩

/-- C5: `curve_grades` leaves every user whose grade is not in the grade
table ("Pending", "Error", …) unchanged, and is monotone over graded users:
a strictly better original grade never yields a worse curved grade.  The
judge-results dict is modelled as an association list with distinct keys. -/
theorem curve_grades_pending_and_monotone (jr : List (String × Export.JResult))
    (hnd : (jr.map (·.1)).Nodup) :
    (∀ u r, List.lookup u jr = some r →
      Export.GRADE_ORDER (r.quality_grade.getD "Pending") = none →
      List.lookup u (Export.curve_grades jr) = some r) ∧
    (∀ u v ru rv nu nv,
      List.lookup u jr = some ru → List.lookup v jr = some rv →
      Export.GRADE_ORDER (ru.quality_grade.getD "Pending") = some nu →
      Export.GRADE_ORDER (rv.quality_grade.getD "Pending") = some nv →
      nv < nu →
      ∃ cu cv, List.lookup u (Export.curve_grades jr) = some cu ∧
        List.lookup v (Export.curve_grades jr) = some cv ∧
        gradeVal (cv.quality_grade.getD "Pending") ≤
          gradeVal (cu.quality_grade.getD "Pending")) := by
  constructor
  · intro u r hlu hnone
    by_cases hne : (Export.gradedOf jr).isEmpty
    · simp only [Export.curve_grades, hne, if_true]
      exact hlu
    · have hne' : (Export.gradedOf jr).isEmpty = false := by
        simpa using hne
      have hcurve : Export.curve_grades jr =
          Export.assignGrades (Export.stableSortAsc (Export.gradedOf jr)).enum
            (Export.stableSortAsc (Export.gradedOf jr)).length jr := by
        simp only [Export.curve_grades, hne', Bool.false_eq_true, if_false]
      have hnotmem :
          u ∉ (Export.stableSortAsc (Export.gradedOf jr)).enum.map (·.2.1) := by
        rw [enum_keys]
        intro hmem
        obtain ⟨⟨u', m⟩, hm, hu⟩ := List.mem_map.mp hmem
        have hu' : u' = u := hu
        have hm' : (u', m) ∈ Export.gradedOf jr :=
          (stableSortAsc_perm (Export.gradedOf jr)).mem_iff.mp hm
        unfold Export.gradedOf at hm'
        obtain ⟨⟨u2, r2⟩, hmem2, heq2⟩ := List.mem_filterMap.mp hm'
        cases ho : Export.GRADE_ORDER (r2.quality_grade.getD "Pending") with
        | none =>
          rw [ho] at heq2
          exact absurd heq2 (by simp)
        | some m2 =>
          rw [ho] at heq2
          have heq3 : some (u2, m2) = some (u', m) := heq2
          injection heq3 with heq4
          have hu2 : u2 = u' := congrArg Prod.fst heq4
          have hl2 : List.lookup u jr = some r2 := by
            rw [← hu', ← hu2]
            exact mem_lookup_of_nodup hnd hmem2
          rw [hlu] at hl2
          injection hl2 with hl3
          rw [← hl3] at ho
          rw [hnone] at ho
          exact absurd ho (by simp)
      rw [hcurve,
        lookup_assignGrades_not_mem _ _ jr u hnotmem]
      exact hlu
  · intro u v ru rv nu nv hlu hlv hgu hgv hlt
    obtain ⟨iu, hiu, hgetu, hcu⟩ := curve_lookup_graded jr hnd hlu hgu
    obtain ⟨iv, hiv, hgetv, hcv⟩ := curve_lookup_graded jr hnd hlv hgv
    have hsorted := stableSortAsc_sorted (Export.gradedOf jr)
    have hviu : iv ≤ iu := by
      by_contra hlt2
      push_neg at hlt2
      rcases Nat.lt_or_ge iu iv with hltuv | hgeuv
      · have := List.pairwise_iff_getElem.mp hsorted iu iv hiu hiv hltuv
        have h1 : (Export.stableSortAsc (Export.gradedOf jr))[iu] = (u, nu) :=
          (List.get_eq_getElem _ ⟨iu, hiu⟩).symm.trans hgetu
        have h2 : (Export.stableSortAsc (Export.gradedOf jr))[iv] = (v, nv) :=
          (List.get_eq_getElem _ ⟨iv, hiv⟩).symm.trans hgetv
        rw [h1, h2] at this
        simp at this
        omega
      · omega
    have hpct := pct_mono (Export.stableSortAsc (Export.gradedOf jr)).length hviu
    have hmono := gradeFor_mono hpct
    refine ⟨_, _, hcu, hcv, ?_⟩
    simpa using hmono

/-- C5 witness: two graded users ("A" better than "C") and one pending user. -/
theorem curve_grades_pending_and_monotone_witness :
    (([("bad", (⟨some "C", []⟩ : Export.JResult)), ("good", ⟨some "A", []⟩),
        ("pend", ⟨none, [("x", "y")]⟩)].map (·.1)).Nodup) ∧
    List.lookup "pend" (Export.curve_grades
      [("bad", ⟨some "C", []⟩), ("good", ⟨some "A", []⟩),
       ("pend", ⟨none, [("x", "y")]⟩)]) = some ⟨none, [("x", "y")]⟩ ∧
    (∃ cu cv,
      List.lookup "good" (Export.curve_grades
        [("bad", ⟨some "C", []⟩), ("good", ⟨some "A", []⟩),
         ("pend", ⟨none, [("x", "y")]⟩)]) = some cu ∧
      List.lookup "bad" (Export.curve_grades
        [("bad", ⟨some "C", []⟩), ("good", ⟨some "A", []⟩),
         ("pend", ⟨none, [("x", "y")]⟩)]) = some cv ∧
      gradeVal (cv.quality_grade.getD "Pending") ≤
        gradeVal (cu.quality_grade.getD "Pending")) := by
  have h := curve_grades_pending_and_monotone
    [("bad", ⟨some "C", []⟩), ("good", ⟨some "A", []⟩),
     ("pend", ⟨none, [("x", "y")]⟩)] (by decide)
  exact ⟨by decide,
    h.1 "pend" ⟨none, [("x", "y")]⟩ (by decide) (by decide),
    h.2 "good" "bad" ⟨some "A", []⟩ ⟨some "C", []⟩ 12 6
      (by decide) (by decide) (by decide) (by decide) (by decide)⟩

/-- C10: every curved grade comes from the twelve grades of
`CURVE_THRESHOLDS` (so `"A+"` and `"F-"` are never assigned), and with
exactly one graded user that user's curved grade is `"F"` regardless of the
original grade. -/
theorem curve_grades_range_and_single_user (jr : List (String × Export.JResult))
    (hnd : (jr.map (·.1)).Nodup) :
    (∀ u r nu, List.lookup u jr = some r →
      Export.GRADE_ORDER (r.quality_grade.getD "Pending") = some nu →
      ∃ c g, List.lookup u (Export.curve_grades jr) = some c ∧
        c.quality_grade = some g ∧ g ∈ Export.CURVE_THRESHOLDS.map (·.2) ∧
        g ≠ "A+" ∧ g ≠ "F-") ∧
    (∀ u0 n0 r0, Export.gradedOf jr = [(u0, n0)] →
      List.lookup u0 jr = some r0 →
      List.lookup u0 (Export.curve_grades jr) =
        some { r0 with quality_grade := some "F" }) := by
  constructor
  · intro u r nu hlu hg
    obtain ⟨i, hi, _, hcu⟩ := curve_lookup_graded jr hnd hlu hg
    have hall : ∀ g ∈ Export.CURVE_THRESHOLDS.map (·.2), g ≠ "A+" ∧ g ≠ "F-" := by
      decide
    refine ⟨_, _, hcu, rfl, gradeFor_mem_table (pct_le_100 hi),
      (hall _ (gradeFor_mem_table (pct_le_100 hi))).1,
      (hall _ (gradeFor_mem_table (pct_le_100 hi))).2⟩
  · intro u0 n0 r0 hsingle hlu
    have hg : Export.GRADE_ORDER (r0.quality_grade.getD "Pending") = some n0 := by
      have hmem : (u0, n0) ∈ Export.gradedOf jr := by
        rw [hsingle]
        simp
      unfold Export.gradedOf at hmem
      obtain ⟨⟨u2, r2⟩, hmem2, heq2⟩ := List.mem_filterMap.mp hmem
      cases ho : Export.GRADE_ORDER (r2.quality_grade.getD "Pending") with
      | none =>
        rw [ho] at heq2
        exact absurd heq2 (by simp)
      | some m2 =>
        rw [ho] at heq2
        have heq3 : some (u2, m2) = some (u0, n0) := heq2
        injection heq3 with heq4
        have hu2 : u2 = u0 := congrArg Prod.fst heq4
        have hm2 : m2 = n0 := congrArg Prod.snd heq4
        have hl2 : List.lookup u0 jr = some r2 := by
          rw [← hu2]
          exact mem_lookup_of_nodup hnd hmem2
        rw [hlu] at hl2
        injection hl2 with hl3
        rw [hl3, ho, hm2]
    obtain ⟨i, hi, _, hcu⟩ := curve_lookup_graded jr hnd hlu hg
    have hsort1 : Export.stableSortAsc (Export.gradedOf jr) = [(u0, n0)] := by
      rw [hsingle]
      rfl
    rw [hsort1] at hi hcu
    have hi0 : i = 0 := by
      simp at hi
      exact hi
    rw [hi0] at hcu
    have hF : Export.gradeFor (Export.pct 0 [(u0, n0)].length) = "F" := by
      have hpct : Export.pct 0 [(u0, n0)].length = 0 := by
        norm_num [Export.pct]
      rw [hpct, gradeFor_cases]
      norm_num
    rw [hF] at hcu
    exact hcu

/-- C10 witness: a single graded user with original grade "A" is curved to
"F"; their curved grade lies in the twelve-grade table. -/
theorem curve_grades_range_and_single_user_witness :
    (∃ c g, List.lookup "solo" (Export.curve_grades
        [("solo", (⟨some "A", []⟩ : Export.JResult))]) = some c ∧
      c.quality_grade = some g ∧ g ∈ Export.CURVE_THRESHOLDS.map (·.2) ∧
      g ≠ "A+" ∧ g ≠ "F-") ∧
    List.lookup "solo" (Export.curve_grades
      [("solo", (⟨some "A", []⟩ : Export.JResult))]) =
      some ⟨some "F", []⟩ := by
  have h := curve_grades_range_and_single_user
    [("solo", (⟨some "A", []⟩ : Export.JResult))] (by decide)
  exact ⟨h.1 "solo" ⟨some "A", []⟩ 12 (by decide) (by decide),
    h.2 "solo" 12 ⟨some "A", []⟩ (by decide) (by decide)⟩

/-- C7: any comment body whose fenced ```json block parses to the object
`{"grade": "B+", "verdict": "x", "badge": "y"}` yields exactly the triple
`("B+", "x", "y")`. -/
theorem parse_json_block_exact (body c : String)
    (h1 : reSearch jsonBlockRe body = some c)
    (h2 : jsonLoads c = some (Json.obj
      [("grade", Json.str "B+"), ("verdict", Json.str "x"),
       ("badge", Json.str "y")])) :
    parse_coderabbit_response body = some ⟨"B+", "x", "y"⟩ := by
  simp only [parse_coderabbit_response, h1, h2]
  rfl

/-- C7 witness: a concrete body carrying the fenced JSON block. -/
theorem parse_json_block_exact_witness :
    reSearch jsonBlockRe
        "```json\n\x7b\"grade\": \"B+\", \"verdict\": \"x\", \"badge\": \"y\"\x7d\n```" =
      some "\x7b\"grade\": \"B+\", \"verdict\": \"x\", \"badge\": \"y\"\x7d" ∧
    jsonLoads "\x7b\"grade\": \"B+\", \"verdict\": \"x\", \"badge\": \"y\"\x7d" =
      some (Json.obj [("grade", Json.str "B+"), ("verdict", Json.str "x"),
        ("badge", Json.str "y")]) ∧
    parse_coderabbit_response
        "```json\n\x7b\"grade\": \"B+\", \"verdict\": \"x\", \"badge\": \"y\"\x7d\n```" =
      some ⟨"B+", "x", "y"⟩ :=
  ⟨rfl, rfl,
   parse_json_block_exact
     "```json\n\x7b\"grade\": \"B+\", \"verdict\": \"x\", \"badge\": \"y\"\x7d\n```"
     "\x7b\"grade\": \"B+\", \"verdict\": \"x\", \"badge\": \"y\"\x7d" rfl rfl⟩

/-- C6 counterexample: a fenced JSON block decoding to the array `[1]` makes
`data.get` raise an uncaught `AttributeError` (modelled as `none`), so the
parser does not return a populated triple on every input. -/
theorem parse_response_raises_on_non_object :
    parse_coderabbit_response "```json\n[1]\n```" = none := by rfl

/-- C6 (amended): `parse_coderabbit_response` returns a populated triple for
every input whose fenced JSON block is absent, invalid, or decodes to a JSON
object — any unresolved field defaulting to "Pending" (grade), the
pending-review placeholder (verdict) and "Unknown" (badge) — but raises an
uncaught `AttributeError` when the block decodes to a non-object value. -/
theorem parse_response_total_with_defaults (body : String) :
    (∀ c, reSearch jsonBlockRe body = some c →
      (∀ kvs, jsonLoads c = some (Json.obj kvs) →
        parse_coderabbit_response body = some (jsonTriple kvs) ∧
        (jGet kvs "grade" = none → (jsonTriple kvs).quality_grade = "Pending") ∧
        (jGet kvs "verdict" = none →
          (jsonTriple kvs).verdict = "Pending review...") ∧
        (jGet kvs "badge" = none →
          (jsonTriple kvs).coderabbit_badge = "Unknown")) ∧
      (∀ j, jsonLoads c = some j → (∀ kvs, j ≠ Json.obj kvs) →
        parse_coderabbit_response body = none) ∧
      (jsonLoads c = none →
        parse_coderabbit_response body = some (fallbackResult body))) ∧
    (reSearch jsonBlockRe body = none →
      parse_coderabbit_response body = some (fallbackResult body)) ∧
    (gradeSearch body = none → (fallbackResult body).quality_grade = "Pending") ∧
    (verdictSearch body = none →
      (fallbackResult body).verdict = extract_first_roast body) ∧
    (badgeSearch body = none →
      (fallbackResult body).coderabbit_badge = "Unknown") ∧
    (roastCandidate body = none →
      extract_first_roast body = "Pending review…") := by
  refine ⟨?_, ?_, ?_, ?_, ?_, ?_⟩
  · intro c hc
    refine ⟨?_, ?_, ?_⟩
    · intro kvs hkvs
      refine ⟨?_, ?_, ?_, ?_⟩
      · simp only [parse_coderabbit_response, hc, hkvs]
      · intro hnone
        simp [jsonTriple, hnone]
      · intro hnone
        simp [jsonTriple, hnone]
      · intro hnone
        simp [jsonTriple, hnone]
    · intro j hj hne
      cases j with
      | obj kvs => exact absurd rfl (hne kvs)
      | null => simp only [parse_coderabbit_response, hc, hj]
      | bool b => simp only [parse_coderabbit_response, hc, hj]
      | num n => simp only [parse_coderabbit_response, hc, hj]
      | numF l => simp only [parse_coderabbit_response, hc, hj]
      | str s => simp only [parse_coderabbit_response, hc, hj]
      | arr l => simp only [parse_coderabbit_response, hc, hj]
    · intro hnone
      simp only [parse_coderabbit_response, hc, hnone]
  · intro hc
    simp only [parse_coderabbit_response, hc]
  · intro hnone
    simp [fallbackResult, hnone]
  · intro hnone
    simp [fallbackResult, hnone]
  · intro hnone
    simp [fallbackResult, hnone]
  · intro hnone
    unfold extract_first_roast
    rw [hnone]

/-- C6 witness: an input with no JSON block and no recognisable patterns
degrades to the default triple. -/
theorem parse_response_total_with_defaults_witness :
    reSearch jsonBlockRe "no structured verdict here" = none ∧
    parse_coderabbit_response "no structured verdict here" =
      some (fallbackResult "no structured verdict here") ∧
    (fallbackResult "no structured verdict here").quality_grade = "Pending" ∧
    (fallbackResult "no structured verdict here").coderabbit_badge = "Unknown" ∧
    extract_first_roast "no structured verdict here" = "Pending review…" :=
  ⟨rfl,
   (parse_response_total_with_defaults "no structured verdict here").2.1 rfl,
   (parse_response_total_with_defaults "no structured verdict here").2.2.1 rfl,
   (parse_response_total_with_defaults "no structured verdict here").2.2.2.2.1 rfl,
   (parse_response_total_with_defaults "no structured verdict here").2.2.2.2.2 rfl⟩

/-! ## Helper lemmas: judge phases -/

theorem gh_log (net : Net) (m p : String) :
    ∀ (r : Nat) (log : List NetCall), 1 ≤ r →
      ∃ k, 1 ≤ k ∧ k ≤ r ∧
        (gh net m p r log).2 = log ++ List.replicate k ⟨m, p⟩
  | 0, _, h => absurd h (by omega)
  | r + 1, log, _ => by
    unfold gh
    by_cases hret : (net log ⟨m, p⟩).status = 502 ∨ (net log ⟨m, p⟩).status = 503 ∨
        (net log ⟨m, p⟩).status = 429
    · rw [if_pos hret]
      by_cases hr : r = 0
      · rw [if_pos hr]
        exact ⟨1, le_refl 1, by omega, by simp⟩
      · rw [if_neg hr]
        obtain ⟨k, hk1, hk2, hk3⟩ :=
          gh_log net m p r (log ++ [⟨m, p⟩]) (by omega)
        refine ⟨k + 1, by omega, by omega, ?_⟩
        rw [hk3, List.append_assoc]
        congr 1
    · rw [if_neg hret]
      exact ⟨1, le_refl 1, by omega, by simp⟩

theorem forkStep_skip (net : Net) (auth : String) :
    ∀ (pre : List (String × List String)) (st : JState) (log : List NetCall),
      (∀ p ∈ pre, truthyS (getU st p.1).fork_name = true) →
      pre.foldl (forkStep net auth) (st, log) = (st, log)
  | [], _, _, _ => rfl
  | p :: rest, st, log, h => by
    rw [List.foldl_cons]
    have hstep : forkStep net auth (st, log) p = (st, log) := by
      simp only [forkStep]
      rw [if_pos (h p (by simp))]
    rw [hstep]
    exact forkStep_skip net auth rest st log fun q hq => h q (by simp [hq])

theorem prStep_skip (net : Net) :
    ∀ (users : List String) (st : JState) (log : List NetCall),
      (∀ u ∈ users, truthyN (getU st u).pr_number = true) →
      users.foldl (prStep net) (st, log) = (st, log)
  | [], _, _, _ => rfl
  | u :: rest, st, log, h => by
    rw [List.foldl_cons]
    have hstep : prStep net (st, log) u = (st, log) := by
      simp only [prStep]
      by_cases hf : truthyS (getU st u).fork_name
      · rw [if_neg (by simp [hf]), if_pos (h u (by simp))]
      · rw [if_pos (by simp [hf])]
    rw [hstep]
    exact prStep_skip net rest st log fun q hq => h q (by simp [hq])

theorem commentStep_skip (net : Net) (now : String → String) :
    ∀ (users : List String) (st : JState) (log : List NetCall),
      (∀ u ∈ users, (getU st u).comment_posted = true) →
      users.foldl (commentStep net now) (st, log) = (st, log)
  | [], _, _, _ => rfl
  | u :: rest, st, log, h => by
    rw [List.foldl_cons]
    have hstep : commentStep net now (st, log) u = (st, log) := by
      simp only [commentStep]
      by_cases hp : truthyN (getU st u).pr_number
      · rw [if_neg (by simp [hp]), if_pos (h u (by simp))]
      · rw [if_pos (by simp [hp])]
    rw [hstep]
    exact commentStep_skip net now rest st log fun q hq => h q (by simp [hq])

/-- C2 (amended): with the relevant flag set for every user, re-running
`phase_pr` or `phase_comment` performs no network calls at all, and
re-running `phase_fork` performs only the unconditional authenticated-user
lookup `GET /user` (with its up-to-3 retries) and no per-user fork calls. -/
theorem phases_no_network_when_flagged (net : Net)
    (precomputed : List (String × List String)) (users : List String)
    (now : String → String) (st : JState) (log : List NetCall) :
    ((∀ p ∈ precomputed, truthyS (getU st p.1).fork_name = true) →
      (phase_fork net precomputed st log).1 = st ∧
      ∃ k, 1 ≤ k ∧ k ≤ 3 ∧
        (phase_fork net precomputed st log).2 =
          log ++ List.replicate k ⟨"GET", "/user"⟩) ∧
    ((∀ u ∈ users, truthyN (getU st u).pr_number = true) →
      phase_pr net users st log = (st, log)) ∧
    ((∀ u ∈ users, (getU st u).comment_posted = true) →
      phase_comment net now users st log = (st, log)) := by
  refine ⟨?_, ?_, ?_⟩
  · intro h
    obtain ⟨k, hk1, hk2, hk3⟩ := gh_log net "GET" "/user" 3 log (by omega)
    have hcall :
        phase_fork net precomputed st log = (st, (gh net "GET" "/user" 3 log).2) := by
      unfold phase_fork
      rcases hgh : gh net "GET" "/user" 3 log with ⟨rA, lg⟩
      dsimp only
      by_cases hst : 400 ≤ rA.status
      · rw [if_pos hst]
      · rw [if_neg hst]
        exact forkStep_skip net rA.login precomputed st lg h
    rw [hcall]
    exact ⟨rfl, k, hk1, hk2, hk3⟩
  · intro h
    exact prStep_skip net users st log h
  · intro h
    exact commentStep_skip net now users st log h

/-- C2 counterexample: with every user's fork flag already set, `phase_fork`
still performs the network call `GET /user` (so the claim "performs no
network calls" fails for the fork phase). -/
theorem phase_fork_always_calls_user_endpoint :
    truthyS (getU stForked "alice").fork_name = true ∧
    (phase_fork netOk [("alice", ["r"])] stForked []).2 =
      [⟨"GET", "/user"⟩] :=
  ⟨by decide, by rfl⟩

/-- C2 witness: one user with all three flags set. -/
theorem phases_no_network_when_flagged_witness :
    (∀ p ∈ [("alice", ["r"])], truthyS (getU stForked p.1).fork_name = true) ∧
    (phase_fork netOk [("alice", ["r"])] stForked []).1 = stForked ∧
    phase_pr netOk ["alice"] stForked [] = (stForked, []) ∧
    phase_comment netOk (fun _ => "t") ["alice"] stForked [] = (stForked, []) := by
  have h := phases_no_network_when_flagged netOk [("alice", ["r"])] ["alice"]
    (fun _ => "t") stForked []
  exact ⟨by decide, (h.1 (by decide)).1, h.2.1 (by decide), h.2.2 (by decide)⟩

theorem getU_updU (st : JState) (u : String) (f : UserState → UserState)
    (v : String) :
    getU (updU st u f) v = if v = u then f (getU st u) else getU st v := by
  unfold getU updU
  by_cases hv : v = u
  · rw [if_pos hv, if_pos hv]
    rfl
  · rw [if_neg hv, if_neg hv]

theorem phase_fork_404_run (net : Net) (u repo : String) (st : JState)
    (hu : truthyS (getU st u).fork_name = false)
    (hauth : (net [] ⟨"GET", "/user"⟩).status < 400)
    (hchk : (net [⟨"GET", "/user"⟩]
      ⟨"GET", "/repos/" ++ (net [] ⟨"GET", "/user"⟩).login ++ "/" ++ repo⟩).status
        = 404)
    (hfork : (net [⟨"GET", "/user"⟩,
        ⟨"GET", "/repos/" ++ (net [] ⟨"GET", "/user"⟩).login ++ "/" ++ repo⟩]
      ⟨"POST", "/repos/" ++ u ++ "/" ++ repo ++ "/forks"⟩).status = 404) :
    phase_fork net [(u, [repo])] st [] =
      (updU st u fun e => { e with error := some "fork_failed" },
       [⟨"GET", "/user"⟩,
        ⟨"GET", "/repos/" ++ (net [] ⟨"GET", "/user"⟩).login ++ "/" ++ repo⟩,
        ⟨"POST", "/repos/" ++ u ++ "/" ++ repo ++ "/forks"⟩]) := by
  have hgh1 : gh net "GET" "/user" 3 [] =
      (net [] ⟨"GET", "/user"⟩, [⟨"GET", "/user"⟩]) := by
    unfold gh
    rw [if_neg]
    · simp
    · rintro (h | h | h) <;> omega
  have hgh2 : gh net "GET"
      ("/repos/" ++ (net [] ⟨"GET", "/user"⟩).login ++ "/" ++ repo) 3
      [⟨"GET", "/user"⟩] =
      (net [⟨"GET", "/user"⟩]
        ⟨"GET", "/repos/" ++ (net [] ⟨"GET", "/user"⟩).login ++ "/" ++ repo⟩,
       [⟨"GET", "/user"⟩,
        ⟨"GET", "/repos/" ++ (net [] ⟨"GET", "/user"⟩).login ++ "/" ++ repo⟩]) := by
    unfold gh
    rw [if_neg]
    · simp
    · rintro (h | h | h) <;> omega
  have hgh3 : gh net "POST" ("/repos/" ++ u ++ "/" ++ repo ++ "/forks") 3
      [⟨"GET", "/user"⟩,
       ⟨"GET", "/repos/" ++ (net [] ⟨"GET", "/user"⟩).login ++ "/" ++ repo⟩] =
      (net [⟨"GET", "/user"⟩,
        ⟨"GET", "/repos/" ++ (net [] ⟨"GET", "/user"⟩).login ++ "/" ++ repo⟩]
        ⟨"POST", "/repos/" ++ u ++ "/" ++ repo ++ "/forks"⟩,
       [⟨"GET", "/user"⟩,
        ⟨"GET", "/repos/" ++ (net [] ⟨"GET", "/user"⟩).login ++ "/" ++ repo⟩,
        ⟨"POST", "/repos/" ++ u ++ "/" ++ repo ++ "/forks"⟩]) := by
    unfold gh
    rw [if_neg]
    · simp
    · rintro (h | h | h) <;> omega
  have hrepo : fork_repo net u repo (net [] ⟨"GET", "/user"⟩).login
      [⟨"GET", "/user"⟩] =
      (none,
       [⟨"GET", "/user"⟩,
        ⟨"GET", "/repos/" ++ (net [] ⟨"GET", "/user"⟩).login ++ "/" ++ repo⟩,
        ⟨"POST", "/repos/" ++ u ++ "/" ++ repo ++ "/forks"⟩]) := by
    unfold fork_repo
    rw [hgh2]
    dsimp only
    rw [if_neg (by simp [hchk]), hgh3]
    dsimp only
    rw [if_neg (by simp [hfork])]
  unfold phase_fork
  rw [hgh1]
  dsimp only
  rw [if_neg (by omega), List.foldl_cons, List.foldl_nil]
  unfold forkStep
  dsimp only
  rw [hu]
  rw [if_neg (by simp)]
  rw [hrepo]
  dsimp only
  rfl

/-- C3 (amended): when `phase_fork` hits repository-not-found (404) for a
user, it marks `error = "fork_failed"` and leaves `fork_name` unset — and
because the skip check looks only at `fork_name`, a subsequent run of
`phase_fork` over the resulting state attempts to fork that user's
repository again (it issues `POST /repos/{user}/{repo}/forks` once more). -/
theorem phase_fork_404_marks_error_and_retries (net : Net) (u repo : String)
    (st : JState)
    (hu : truthyS (getU st u).fork_name = false)
    (hauth : (net [] ⟨"GET", "/user"⟩).status < 400)
    (hchk : (net [⟨"GET", "/user"⟩]
      ⟨"GET", "/repos/" ++ (net [] ⟨"GET", "/user"⟩).login ++ "/" ++ repo⟩).status
        = 404)
    (hfork : (net [⟨"GET", "/user"⟩,
        ⟨"GET", "/repos/" ++ (net [] ⟨"GET", "/user"⟩).login ++ "/" ++ repo⟩]
      ⟨"POST", "/repos/" ++ u ++ "/" ++ repo ++ "/forks"⟩).status = 404) :
    (getU (phase_fork net [(u, [repo])] st []).1 u).error = some "fork_failed" ∧
    truthyS (getU (phase_fork net [(u, [repo])] st []).1 u).fork_name = false ∧
    ⟨"POST", "/repos/" ++ u ++ "/" ++ repo ++ "/forks"⟩ ∈
      (phase_fork net [(u, [repo])]
        (phase_fork net [(u, [repo])] st []).1 []).2 := by
  have h1 := phase_fork_404_run net u repo st hu hauth hchk hfork
  have herr : (getU (phase_fork net [(u, [repo])] st []).1 u).error =
      some "fork_failed" := by
    rw [h1]
    dsimp only
    rw [getU_updU, if_pos rfl]
  have hfn : truthyS (getU (phase_fork net [(u, [repo])] st []).1 u).fork_name =
      false := by
    rw [h1]
    dsimp only
    rw [getU_updU, if_pos rfl]
    exact hu
  have h2 := phase_fork_404_run net u repo
    (phase_fork net [(u, [repo])] st []).1 hfn hauth hchk hfork
  refine ⟨herr, hfn, ?_⟩
  rw [h2]
  simp

/-- C3 counterexample: with a concrete 404-answering network oracle, a user
whose first fork attempt 404-failed (state marked `error = "fork_failed"`)
is forked again by the next run of `phase_fork`, contradicting "the fork is
not retried". -/
theorem phase_fork_404_retried_counterexample :
    (getU (phase_fork net404 [("alice", ["r"])] emptyJState []).1 "alice").error =
      some "fork_failed" ∧
    ⟨"POST", "/repos/alice/r/forks"⟩ ∈
      (phase_fork net404 [("alice", ["r"])]
        (phase_fork net404 [("alice", ["r"])] emptyJState []).1 []).2 :=
  ⟨by rfl, by decide⟩

/-- C3 witness: the concrete 404 oracle discharges the amended theorem's
hypotheses at `u = "alice"`, `repo = "r"`, the empty state. -/
theorem phase_fork_404_marks_error_and_retries_witness :
    truthyS (getU emptyJState "alice").fork_name = false ∧
    (getU (phase_fork net404 [("alice", ["r"])] emptyJState []).1 "alice").error =
      some "fork_failed" ∧
    ⟨"POST", "/repos/alice/r/forks"⟩ ∈
      (phase_fork net404 [("alice", ["r"])]
        (phase_fork net404 [("alice", ["r"])] emptyJState []).1 []).2 := by
  have h := phase_fork_404_marks_error_and_retries net404 "alice" "r"
    emptyJState (by decide) (by decide) (by decide) (by decide)
  exact ⟨by decide, h.1, h.2.2⟩

theorem truthyS_ne_none {o : Option String} (h : truthyS o = true) : o ≠ none := by
  cases o with
  | none => exact absurd h (by decide)
  | some s => exact fun hc => Option.noConfusion hc

theorem truthyN_ne_none {o : Option Nat} (h : truthyN o = true) : o ≠ none := by
  cases o with
  | none => exact absurd h (by decide)
  | some n => exact fun hc => Option.noConfusion hc

theorem stateInv_updU {st : JState} (h : stateInv st) (u : String)
    (f : UserState → UserState)
    (hf : entryInv (getU st u) → entryInv (f (getU st u))) :
    stateInv (updU st u f) := by
  intro v
  rw [getU_updU]
  by_cases hv : v = u
  · rw [if_pos hv]
    exact hf (h u)
  · rw [if_neg hv]
    exact h v

theorem stateInv_empty : stateInv emptyJState := by
  intro u
  exact ⟨fun h => absurd rfl h,
    fun h => Bool.noConfusion (show (false : Bool) = true from h)⟩

theorem forkStep_inv (net : Net) (auth : String)
    (acc : JState × List NetCall) (p : String × List String)
    (h : stateInv acc.1) : stateInv (forkStep net auth acc p).1 := by
  obtain ⟨st, log⟩ := acc
  unfold forkStep
  dsimp only
  by_cases h1 : truthyS (getU st p.1).fork_name
  · rw [if_pos h1]
    exact h
  · rw [if_neg h1]
    cases p.2 with
    | nil => exact h
    | cons repo rest =>
      dsimp only
      rcases hfr : fork_repo net p.1 repo auth log with ⟨fo, log2⟩
      dsimp only
      by_cases h2 : truthyS fo
      · rw [if_pos h2]
        dsimp only
        refine stateInv_updU h p.1 _ ?_
        intro he
        exact ⟨fun _ => truthyS_ne_none h2, fun hc => he.2 hc⟩
      · rw [if_neg h2]
        dsimp only
        refine stateInv_updU h p.1 _ ?_
        intro he
        exact ⟨he.1, he.2⟩

theorem prStep_inv (net : Net) (acc : JState × List NetCall) (u : String)
    (h : stateInv acc.1) : stateInv (prStep net acc u).1 := by
  obtain ⟨st, log⟩ := acc
  unfold prStep
  dsimp only
  by_cases h1 : truthyS (getU st u).fork_name
  · rw [if_neg (by simp [h1])]
    by_cases h2 : truthyN (getU st u).pr_number
    · rw [if_pos h2]
      exact h
    · rw [if_neg h2]
      rcases hgh : gh net "GET" ("/repos/" ++ (getU st u).fork_name.getD "") 3 log
        with ⟨r, log2⟩
      dsimp only
      by_cases h3 : r.status ≠ 200
      · rw [if_pos h3]
        exact h
      · rw [if_neg h3]
        rcases hcb : create_base_branch net ((getU st u).fork_name.getD "")
            r.default_branch log2 with ⟨sha, log3⟩
        dsimp only
        by_cases h4 : truthyS sha
        · rw [if_neg (by simp [h4])]
          rcases hcp : create_pr net ((getU st u).fork_name.getD "")
              r.default_branch log3 with ⟨pr, log4⟩
          dsimp only
          by_cases h5 : truthyN pr
          · rw [if_pos h5]
            dsimp only
            refine stateInv_updU h u _ ?_
            intro he
            exact ⟨fun _ => truthyS_ne_none h1, fun _ => truthyN_ne_none h5⟩
          · rw [if_neg h5]
            exact h
        · rw [if_pos (by simp [h4])]
          exact h
  · rw [if_pos (by simp [h1])]
    exact h

theorem commentStep_inv (net : Net) (now : String → String)
    (acc : JState × List NetCall) (u : String)
    (h : stateInv acc.1) : stateInv (commentStep net now acc u).1 := by
  obtain ⟨st, log⟩ := acc
  unfold commentStep
  dsimp only
  by_cases h1 : truthyN (getU st u).pr_number
  · rw [if_neg (by simp [h1])]
    by_cases h2 : (getU st u).comment_posted
    · rw [if_pos h2]
      exact h
    · rw [if_neg h2]
      rcases hg1 : gh net "POST" ("/repos/" ++ (getU st u).fork_name.getD "" ++
          "/issues/" ++ toString ((getU st u).pr_number.getD 0) ++ "/comments") 3 log
        with ⟨r1, log2⟩
      dsimp only
      rcases hg2 : gh net "POST" ("/repos/" ++ (getU st u).fork_name.getD "" ++
          "/issues/" ++ toString ((getU st u).pr_number.getD 0) ++ "/comments") 3 log2
        with ⟨r2, log3⟩
      dsimp only
      by_cases h3 : r2.status = 200 ∨ r2.status = 201
      · rw [if_pos h3]
        dsimp only
        refine stateInv_updU h u _ ?_
        intro he
        exact ⟨fun hp => he.1 hp, fun _ => truthyN_ne_none h1⟩
      · rw [if_neg h3]
        exact h
  · rw [if_pos (by simp [h1])]
    exact h

theorem pollRound_inv (net : Net) (pending : List String) :
    ∀ (st : JState) (log : List NetCall),
      stateInv st → stateInv (pollRound net pending st log).1 := by
  induction pending with
  | nil => intro st log h; exact h
  | cons u rest ih =>
    intro st log h
    unfold pollRound
    dsimp only
    rcases hgh : gh net "GET" ("/repos/" ++ (getU st u).fork_name.getD "" ++
        "/issues/" ++ toString ((getU st u).pr_number.getD 0) ++ "/comments") 3 log
      with ⟨r, log2⟩
    dsimp only
    by_cases h1 : r.status ≠ 200
    · rw [if_pos h1]
      rcases hpr : pollRound net rest st log2 with ⟨st2, log3, pend2, cr⟩
      dsimp only
      have h2 := ih st log2 h
      rw [hpr] at h2
      exact h2
    · rw [if_neg h1]
      cases hfind : r.comments.find? qualifies with
      | none =>
        dsimp only
        rcases hpr : pollRound net rest st log2 with ⟨st2, log3, pend2, cr⟩
        dsimp only
        have h2 := ih st log2 h
        rw [hpr] at h2
        exact h2
      | some c =>
        dsimp only
        cases hp : parse_coderabbit_response c.body with
        | none => exact h
        | some res =>
          dsimp only
          exact ih _ log2 (stateInv_updU h u _ fun he => ⟨he.1, he.2⟩)

theorem stateInv_foldl_result (rem : List String) :
    ∀ (st : JState), stateInv st →
      stateInv (rem.foldl
        (fun s u => updU s u fun e => { e with result := some pendingResult }) st) := by
  induction rem with
  | nil => intro st h; exact h
  | cons u rest ih =>
    intro st h
    rw [List.foldl_cons]
    exact ih _ (stateInv_updU h u _ fun he => ⟨he.1, he.2⟩)

theorem pollLoop_inv (net : Net) (fuel : Nat) :
    ∀ (pending : List String) (st : JState) (log : List NetCall),
      stateInv st → stateInv (pollLoop net fuel pending st log).1 := by
  induction fuel with
  | zero => intro pending st log h; exact h
  | succ f ih =>
    intro pending st log h
    unfold pollLoop
    by_cases hp : pending.isEmpty
    · rw [if_pos hp]; exact h
    · rw [if_neg hp]
      rcases hpr : pollRound net pending st log with ⟨st2, log2, pend2, cr⟩
      dsimp only
      have h2 : stateInv st2 := by
        have h3 := pollRound_inv net pending st log h
        rw [hpr] at h3
        exact h3
      by_cases hc : cr = true
      · rw [if_pos hc]; exact h2
      · rw [if_neg hc]; exact ih pend2 st2 log2 h2

theorem phase_poll_inv (net : Net) (fuel : Nat) (users : List String)
    (st : JState) (log : List NetCall) (h : stateInv st) :
    stateInv (phase_poll net fuel users st log).1 := by
  unfold phase_poll
  dsimp only
  by_cases hp : (pollPending users st).isEmpty
  · rw [if_pos hp]; exact h
  · rw [if_neg hp]
    rcases hpl : pollLoop net fuel (pollPending users st) st log with ⟨st2, log2, rem⟩
    have h2 : stateInv st2 := by
      have h3 := pollLoop_inv net fuel (pollPending users st) st log h
      rw [hpl] at h3
      exact h3
    cases rem with
    | none => exact h2
    | some rem => exact stateInv_foldl_result rem st2 h2

theorem foldl_acc_inv {β : Type} (f : JState × List NetCall → β → JState × List NetCall)
    (hf : ∀ a b, stateInv a.1 → stateInv (f a b).1) :
    ∀ (l : List β) (a : JState × List NetCall),
      stateInv a.1 → stateInv (l.foldl f a).1 := by
  intro l
  induction l with
  | nil => intro a h; exact h
  | cons b rest ih =>
    intro a h
    rw [List.foldl_cons]
    exact ih _ (hf a b h)

theorem phase_fork_inv (net : Net) (precomputed : List (String × List String))
    (st : JState) (log : List NetCall) (h : stateInv st) :
    stateInv (phase_fork net precomputed st log).1 := by
  unfold phase_fork
  rcases hgh : gh net "GET" "/user" 3 log with ⟨rAuth, log2⟩
  dsimp only
  by_cases h1 : 400 ≤ rAuth.status
  · rw [if_pos h1]; exact h
  · rw [if_neg h1]
    exact foldl_acc_inv _ (fun a b ha => forkStep_inv net rAuth.login a b ha)
      precomputed (st, log2) h

theorem runPhase_inv (net : Net) (precomputed : List (String × List String))
    (now : String → String) (acc : JState × List NetCall) (p : Phase)
    (h : stateInv acc.1) : stateInv (runPhase net precomputed now acc p).1 := by
  cases p with
  | fork => exact phase_fork_inv net precomputed acc.1 acc.2 h
  | pr =>
    exact foldl_acc_inv _ (fun a b ha => prStep_inv net a b ha)
      (precomputed.map (·.1)) (acc.1, acc.2) h
  | comment =>
    exact foldl_acc_inv _ (fun a b ha => commentStep_inv net now a b ha)
      (precomputed.map (·.1)) (acc.1, acc.2) h
  | poll fuel => exact phase_poll_inv net fuel (precomputed.map (·.1)) acc.1 acc.2 h

theorem runPhases_inv (net : Net) (precomputed : List (String × List String))
    (now : String → String) :
    ∀ (seq : List Phase) (acc : JState × List NetCall),
      stateInv acc.1 → stateInv (runPhases net precomputed now seq acc).1 := by
  intro seq
  induction seq with
  | nil => intro acc h; exact h
  | cons p rest ih =>
    intro acc h
    unfold runPhases
    rw [List.foldl_cons]
    exact ih _ (runPhase_inv net precomputed now acc p h)

theorem pollPending_comment_posted (users : List String) (st : JState)
    (u : String) (hu : u ∈ pollPending users st) :
    (getU st u).comment_posted = true := by
  have h1 := List.mem_filter.mp hu
  exact (of_decide_eq_true h1.2).1

/-- C1: phase order is an invariant of the per-user judge state: for every
network oracle, precomputed user list, clock and sequence of phases run from
the empty state, every user's entry carries a `pr_number` only if it carries
a `fork_name` and has `comment_posted` set only if it carries a `pr_number`;
and the pending list that `phase_poll` polls contains only users whose
`comment_posted` flag is set. -/
theorem judge_phase_order_invariant (net : Net)
    (precomputed : List (String × List String)) (now : String → String)
    (seq : List Phase) :
    stateInv (runPhases net precomputed now seq (emptyJState, [])).1 ∧
      ∀ (users : List String) (st : JState) (u : String),
        u ∈ pollPending users st → (getU st u).comment_posted = true := by
  constructor
  · exact runPhases_inv net precomputed now seq (emptyJState, []) stateInv_empty
  · intro users st u hu
    have h1 := List.mem_filter.mp hu
    exact (of_decide_eq_true h1.2).1
